import Mathlib

/-
  Verification of the limit-order-book matching engine core
  (src/cpp/src/book_core.cpp, src/cpp/include/lob/book_core.hpp,
   src/cpp/include/lob/price_levels.hpp).

  Shallow embedding notes:
  * `Tick` and `Quantity` are signed 64-bit in the source (tests/test_types.cpp);
    they are modelled as `Int`, and the empty-side sentinels are the concrete
    int64 extrema `MINP`/`MAXP`.  No arithmetic in the modelled paths can
    overflow without signed-overflow UB in the source, so plain `Int` is used.
  * The intrusive doubly-linked `LevelFIFO` is modelled as a `List OrderNode`
    (front = head, back = tail) plus the cached `total_qty`.  Pointer identity
    of heap-allocated nodes is modelled by a `tag` field drawn from an
    allocation counter (`Book.nextTag`); `new` = fresh tag, and the id index
    stores the tag where the source stores the `OrderNode*`.
  * The ladder models `PriceLevelsSparse` (`std::map<Tick, LevelFIFO>`): an
    assoc list sorted strictly ascending by price.  The source's
    `get_level` inserts an empty bucket on read; empty buckets are invisible
    to `has_level`, `next_ask_after`/`next_bid_before` and to every claim, so
    reads here simply return an empty FIFO without inserting.
  * The source's unbounded `while` loop in `BookCore::match_against` is
    modelled with structural fuel; `match_against` supplies fuel
    `2 * (linked nodes on the opposite side) + 3`, which strictly exceeds the
    number of loop iterations possible (each iteration either removes a node,
    moves the cached best onto a non-empty level, or zeroes `want`).
  * Trade emission is only a logger hook in the source (spec section 6); the
    model materializes the list of (price, qty, maker id) trades the loop
    performs, with the price taken from the level being consumed, i.e. the
    resting order's price.
-/

set_option maxRecDepth 10000

namespace LOB

/-- Side of the book, `lob::Side`. -/
inductive Side where
  | Bid : Side
  | Ask : Side
deriving DecidableEq, Repr

/-- Venue price in ticks, int64 in the source. -/
abbrev Tick := Int

/-- Signed size, int64 in the source. -/
abbrev Quantity := Int

/-- Minimum representable Tick, `std::numeric_limits<Tick>::min()`: the empty
sentinel for the bid side. -/
def MINP : Tick := -(2 ^ 63)

/-- Maximum representable Tick, `std::numeric_limits<Tick>::max()`: the empty
sentinel for the ask side. -/
def MAXP : Tick := 2 ^ 63 - 1

/-- Modelled from the spec: the flag constants live in types.hpp, which is not
under src; the spec says `Flags` is a bitset with at minimum `STP`
(self-trade prevent), with `IOC`, `FOK`, `POST_ONLY` reserved bits, and
tests/test_types.cpp checks the four bits are distinct.  The positions are not
observable; they are modelled as bits 0..3. -/
def IOC : Nat := 1

/-- Reserved flag bit, see `IOC`. -/
def FOK : Nat := 2

/-- Reserved flag bit, see `IOC`. -/
def POST_ONLY : Nat := 4

/-- Self-trade-prevention flag bit, see `IOC`. -/
def STP : Nat := 8

/-- One live resting order, `lob::OrderNode`.  The `prev`/`next` intrusive
links are represented by the node's position in its level's list; `tag` models
the node's pointer identity (allocation order). -/
structure OrderNode where
  id : Nat
  user : Nat
  qty : Quantity
  ts : Nat
  flags : Nat
  tag : Nat
deriving DecidableEq, Repr

/-- All orders at one (side, price), `lob::LevelFIFO`: head = front of the
list, tail = back, with the cached aggregate size. -/
structure LevelFIFO where
  orders : List OrderNode
  total_qty : Quantity
deriving DecidableEq, Repr

/-- Value-initialized `LevelFIFO{}`. -/
def LevelFIFO.init : LevelFIFO := ⟨[], 0⟩

/-- Sum of the quantities of a list of nodes. -/
def sumQty : List OrderNode → Quantity
  | [] => 0
  | n :: ns => n.qty + sumQty ns

/-- Remove the (first) node carrying the given tag; models unlinking the node
the tag stands for (tags of linked nodes are pairwise distinct in every
reachable state). -/
def removeByTag : List OrderNode → Nat → List OrderNode
  | [], _ => []
  | n :: ns, t => if n.tag = t then ns else n :: removeByTag ns t

/-- Quantity of the node carrying the given tag (0 if absent). -/
def qtyOfTag : List OrderNode → Nat → Quantity
  | [], _ => 0
  | n :: ns, t => if n.tag = t then n.qty else qtyOfTag ns t

/-- In-place update of the node carrying the given tag, as in the same-price
branch of `BookCore::modify`: set `qty`, `ts`, `flags`, keep the position. -/
def updateByTag : List OrderNode → Nat → Quantity → Nat → Nat → List OrderNode
  | [], _, _, _, _ => []
  | n :: ns, t, q, ts, fl =>
    if n.tag = t then { n with qty := q, ts := ts, flags := fl } :: ns
    else n :: updateByTag ns t q ts fl

/-- Append a node at the tail, `BookCore::enqueue`: `total_qty += n->qty`. -/
def LevelFIFO.enqueue (L : LevelFIFO) (n : OrderNode) : LevelFIFO :=
  ⟨L.orders ++ [n], L.total_qty + n.qty⟩

/-- Unlink a node, `BookCore::erase`: `total_qty -= n->qty`. -/
def LevelFIFO.eraseTag (L : LevelFIFO) (t : Nat) : LevelFIFO :=
  ⟨removeByTag L.orders t, L.total_qty - qtyOfTag L.orders t⟩

/-- Ladder lookup; `std::map::operator[]` read of a price's FIFO (an absent
key reads as a value-initialized FIFO). -/
def findLevel : List (Tick × LevelFIFO) → Tick → LevelFIFO
  | [], _ => LevelFIFO.init
  | (p, L) :: rest, px => if p = px then L else findLevel rest px

/-- Ladder write at a price: replace the existing bucket or insert a new one
at its sorted position (as `std::map` keeps keys ordered). -/
def setLevel : List (Tick × LevelFIFO) → Tick → LevelFIFO → List (Tick × LevelFIFO)
  | [], px, L => [(px, L)]
  | (p, M) :: rest, px, L =>
    if px < p then (px, L) :: (p, M) :: rest
    else if p = px then (px, L) :: rest
    else (p, M) :: setLevel rest px L

/-- First price strictly greater than `px` whose FIFO is non-empty, else the
ask sentinel; `PriceLevelsSparse::next_ask_after` (the list is ascending). -/
def next_ask_after : List (Tick × LevelFIFO) → Tick → Tick
  | [], _ => MAXP
  | (p, L) :: rest, px =>
    if px < p ∧ L.orders ≠ [] then p else next_ask_after rest px

/-- Greatest price strictly less than `px` whose FIFO is non-empty, else the
bid sentinel; `PriceLevelsSparse::next_bid_before` walks left from
`lower_bound(px)` skipping empty buckets. -/
def next_bid_before : List (Tick × LevelFIFO) → Tick → Tick
  | [], _ => MINP
  | (p, L) :: rest, px =>
    let r := next_bid_before rest px
    if r ≠ MINP then r
    else if p < px ∧ L.orders ≠ [] then p else MINP

/-- One side's price ladder with its cached best, `lob::PriceLevelsSparse`.
Only the side-appropriate best cache is ever read or written by `BookCore`. -/
structure SideBook where
  levels : List (Tick × LevelFIFO)
  best_bid : Tick
  best_ask : Tick
deriving DecidableEq, Repr

/-- Freshly constructed ladder: empty, sentinels cached. -/
def SideBook.init : SideBook := ⟨[], MINP, MAXP⟩

/-- Entry of the order-id index, `BookCore::IdEntry`; `tag` models the stored
`OrderNode*`. -/
structure IdEntry where
  side : Side
  px : Tick
  tag : Nat
deriving DecidableEq, Repr

/-- Lookup in the id index, `id_index_.find`. -/
def idFind : List (Nat × IdEntry) → Nat → Option IdEntry
  | [], _ => none
  | (k, e) :: rest, id => if k = id then some e else idFind rest id

/-- Erase from the id index, `id_index_.erase`. -/
def idErase : List (Nat × IdEntry) → Nat → List (Nat × IdEntry)
  | [], _ => []
  | (k, e) :: rest, id => if k = id then rest else (k, e) :: idErase rest id

/-- `id_index_[id] = e`: assign over an existing key, else insert. -/
def idInsert : List (Nat × IdEntry) → Nat → IdEntry → List (Nat × IdEntry)
  | [], id, e => [(id, e)]
  | (k, f) :: rest, id, e =>
    if k = id then (id, e) :: rest else (k, f) :: idInsert rest id e

/-- The whole engine state, `lob::BookCore`: both ladders, the id index, and
the allocation counter for node tags. -/
structure Book where
  bids : SideBook
  asks : SideBook
  id_index : List (Nat × IdEntry)
  nextTag : Nat
deriving DecidableEq, Repr

/-- A freshly constructed book. -/
def Book.init : Book := ⟨SideBook.init, SideBook.init, [], 0⟩

/-- Order message, `lob::NewOrder`. -/
structure NewOrder where
  seq : Nat
  ts : Nat
  id : Nat
  user : Nat
  side : Side
  price : Tick
  qty : Quantity
  flags : Nat
deriving DecidableEq, Repr

/-- Return summary of a submit/modify, `lob::ExecResult`. -/
structure ExecResult where
  filled : Quantity
  remaining : Quantity
deriving DecidableEq, Repr

/-- One execution: the consumed resting (maker) order's level price, the
traded quantity, and the maker's order id.  The source emits trades only
through the logger hook; the model materializes them. -/
structure Trade where
  px : Tick
  qty : Quantity
  maker_id : Nat
deriving DecidableEq, Repr

/-- Ladder of the given side. -/
def Book.sideLevels (b : Book) : Side → List (Tick × LevelFIFO)
  | .Bid => b.bids.levels
  | .Ask => b.asks.levels

/-- Write one bucket of the given side's ladder. -/
def Book.setSideLevel (b : Book) : Side → Tick → LevelFIFO → Book
  | .Bid, px, L => { b with bids := { b.bids with levels := setLevel b.bids.levels px L } }
  | .Ask, px, L => { b with asks := { b.asks with levels := setLevel b.asks.levels px L } }

/-- Side-relevant cached best of the given side's ladder (`best_bid` for bids,
`best_ask` for asks). -/
def Book.sideBest (b : Book) : Side → Tick
  | .Bid => b.bids.best_bid
  | .Ask => b.asks.best_ask

/-- Write the side-relevant cached best. -/
def Book.setSideBest (b : Book) : Side → Tick → Book
  | .Bid, px => { b with bids := { b.bids with best_bid := px } }
  | .Ask, px => { b with asks := { b.asks with best_ask := px } }

/-- Next non-empty price beyond `px` on the given side, in that side's
direction of worsening prices. -/
def Book.sideNext (b : Book) : Side → Tick → Tick
  | .Bid, px => next_bid_before b.bids.levels px
  | .Ask, px => next_ask_after b.asks.levels px

/-- Empty-side sentinel of a side's cached best. -/
def sentinel : Side → Tick
  | .Bid => MINP
  | .Ask => MAXP

/-- Opposite side. -/
def Side.opp : Side → Side
  | .Bid => .Ask
  | .Ask => .Bid

/-- Crossing predicate of `BookCore::match_against`: a taker bid accepts asks
at `best ≤ px_limit`, a taker ask accepts bids at `best ≥ px_limit`. -/
def crossesB : Side → Tick → Tick → Bool
  | .Bid, best, lim => best ≤ lim
  | .Ask, best, lim => lim ≤ best

/-- Erase an id from the index. -/
def Book.eraseId (b : Book) (id : Nat) : Book :=
  { b with id_index := idErase b.id_index id }

/-- Result of the matching loop: final state, total filled, trades emitted. -/
structure MatchOut where
  book : Book
  filled : Quantity
  trades : List Trade
deriving DecidableEq, Repr

/-- Shared by the STP-cancel and full-fill arms of the matching loop (lines
44-58 and 67-79 of book_core.cpp repeat this sequence): store the level with
its head erased, drop the head's id from the index, and advance the cached
best to the next non-empty level when the level emptied. -/
def eraseHeadAdvance (b : Book) (s : Side) (best : Tick) (L1 : LevelFIFO)
    (hid : Nat) : Book :=
  let b1 := (b.setSideLevel s best L1).eraseId hid
  if L1.orders = [] then b1.setSideBest s (b1.sideNext s best) else b1

/-- The matching loop of `BookCore::match_against`, fuel-indexed (see header
comment; the fuel argument only bounds iterations and `match_against` always
passes enough).  `opp` is the taker's opposite side; each iteration reads the
opposite cached best, breaks on the sentinel or a non-crossing best, self-heals
a stale best, STP-cancels a same-user head, or trades with the head. -/
def matchLoop : Nat → Book → Side → Nat → Nat → Quantity → Tick → MatchOut
  | 0, b, _, _, _, _, _ => ⟨b, 0, []⟩
  | fuel + 1, b, taker, user, flags, want, lim =>
    if ¬ 0 < want then ⟨b, 0, []⟩ else
    let opp := taker.opp
    let best := b.sideBest opp
    if best = sentinel opp then ⟨b, 0, []⟩ else
    if ¬ crossesB taker best lim then ⟨b, 0, []⟩ else
    match (findLevel (b.sideLevels opp) best).orders with
    | [] =>
      -- stale best after cancels: advance to the next non-empty level
      let nxt := b.sideNext opp best
      let b1 := b.setSideBest opp nxt
      if nxt = sentinel opp then ⟨b1, 0, []⟩
      else matchLoop fuel b1 taker user flags want lim
    | h :: _ =>
      let L := findLevel (b.sideLevels opp) best
      if flags &&& STP ≠ 0 ∧ h.user = user then
        -- self-trade prevention: cancel the resting head, no trade,
        -- `want` unchanged
        matchLoop fuel (eraseHeadAdvance b opp best (L.eraseTag h.tag) h.id)
          taker user flags want lim
      else
        -- trade with the head (FIFO)
        let tr := min want h.qty
        let L1 : LevelFIFO := ⟨{ h with qty := h.qty - tr } :: L.orders.tail, L.total_qty - tr⟩
        if h.qty - tr = 0 then
          let out := matchLoop fuel (eraseHeadAdvance b opp best (L1.eraseTag h.tag) h.id)
            taker user flags (want - tr) lim
          ⟨out.book, tr + out.filled, ⟨best, tr, h.id⟩ :: out.trades⟩
        else
          let out := matchLoop fuel (b.setSideLevel opp best L1) taker user flags (want - tr) lim
          ⟨out.book, tr + out.filled, ⟨best, tr, h.id⟩ :: out.trades⟩

/-- Number of linked nodes on a ladder. -/
def nodeCount (ls : List (Tick × LevelFIFO)) : Nat :=
  (ls.map (fun pL => pL.2.orders.length)).sum

/-- Fuel that strictly dominates the number of iterations of the source's
`while` loop. -/
def matchFuel (b : Book) (taker : Side) : Nat :=
  2 * nodeCount (b.sideLevels taker.opp) + 3

/-- `BookCore::match_against` with sufficient fuel. -/
def match_against (b : Book) (taker : Side) (user : Nat) (flags : Nat)
    (want : Quantity) (lim : Tick) : MatchOut :=
  matchLoop (matchFuel b taker) b taker user flags want lim

/-- Result of a submit/modify together with the state and the trades. -/
structure ExecOut where
  book : Book
  res : ExecResult
  trades : List Trade
deriving DecidableEq, Repr

/-- The resting step of `BookCore::submit_limit` (lines 107-133 of
book_core.cpp): allocate the residual node, enqueue it at the tail of its
price's FIFO, improve the cached best when the price is better, and index the
node under the order id. -/
def restOrder (b : Book) (o : NewOrder) (leftover : Quantity) : Book :=
  let L := findLevel (b.sideLevels o.side) o.price
  let n : OrderNode := ⟨o.id, o.user, leftover, o.ts, o.flags, b.nextTag⟩
  let b2 := b.setSideLevel o.side o.price (L.enqueue n)
  let b3 := match o.side with
            | Side.Bid => if b2.bids.best_bid < o.price then b2.setSideBest Side.Bid o.price else b2
            | Side.Ask => if o.price < b2.asks.best_ask then b2.setSideBest Side.Ask o.price else b2
  { b3 with id_index := idInsert b3.id_index o.id ⟨o.side, o.price, b.nextTag⟩,
            nextTag := b.nextTag + 1 }

/-- `BookCore::submit_limit`: match within the price constraint, then rest the
remainder. -/
def submit_limit (b : Book) (o : NewOrder) : ExecOut :=
  if o.qty ≤ 0 then ⟨b, ⟨0, 0⟩, []⟩ else
  let m := match_against b o.side o.user o.flags o.qty o.price
  let leftover := o.qty - m.filled
  if leftover ≤ 0 then ⟨m.book, ⟨m.filled, 0⟩, m.trades⟩ else
  ⟨restOrder m.book o leftover, ⟨m.filled, leftover⟩, m.trades⟩

/-- `BookCore::submit_market`: match with the worst-possible price bound
(buyer: `MAXP`, seller: `MINP`); the remainder never rests. -/
def submit_market (b : Book) (o : NewOrder) : ExecOut :=
  if o.qty ≤ 0 then ⟨b, ⟨0, 0⟩, []⟩ else
  let bound : Tick := match o.side with | .Bid => MAXP | .Ask => MINP
  let m := match_against b o.side o.user o.flags o.qty bound
  ⟨m.book, ⟨m.filled, o.qty - m.filled⟩, m.trades⟩

/-- The cancel path: erase the indexed node from its FIFO, drop the index
entry, and, when the emptied level was the cached best, walk to the next
non-empty level.  `BookCore::cancel` and both cancelling branches of
`BookCore::modify` repeat this code verbatim in the source. -/
def eraseEntry (b : Book) (id : Nat) (e : IdEntry) : Book :=
  let L := findLevel (b.sideLevels e.side) e.px
  let was_best := b.sideBest e.side = e.px
  let L1 := L.eraseTag e.tag
  let b1 := (b.setSideLevel e.side e.px L1).eraseId id
  if L1.orders = [] ∧ was_best
  then b1.setSideBest e.side (b1.sideNext e.side e.px) else b1

/-- `BookCore::cancel`: unknown id returns false, else run the cancel path
(the source's non-null check on the stored node pointer cannot fail and has
no counterpart here: the index never holds a dangling pointer). -/
def cancel (b : Book) (id : Nat) : Book × Bool :=
  match idFind b.id_index id with
  | none => (b, false)
  | some e => (eraseEntry b id e, true)

/-- `BookCore::modify(const NewOrder&)`: unknown id is a no-op; same price
adjusts the node in place (non-positive new qty cancels); a price change
cancels the node and resubmits a limit with the original side. -/
def modify (b : Book) (repl : NewOrder) : ExecOut :=
  match idFind b.id_index repl.id with
  | none => ⟨b, ⟨0, 0⟩, []⟩
  | some e =>
    let L := findLevel (b.sideLevels e.side) e.px
    if repl.price = e.px then
      if repl.qty ≤ 0 then
        -- becomes cancellation
        ⟨eraseEntry b repl.id e, ⟨0, 0⟩, []⟩
      else
        -- adjust total and node qty in place; keep time priority
        let L1 : LevelFIFO := ⟨updateByTag L.orders e.tag repl.qty repl.ts repl.flags,
                               L.total_qty + (repl.qty - qtyOfTag L.orders e.tag)⟩
        ⟨b.setSideLevel e.side e.px L1, ⟨0, 0⟩, []⟩
    else
      -- price changed: cancel old, then resubmit as a fresh limit
      submit_limit (eraseEntry b repl.id e) { repl with side := e.side }

/-- `BookCore::empty`: a side is reported empty when its cached best is the
sentinel. -/
def Book.emptySide (b : Book) (s : Side) : Bool :=
  b.sideBest s = sentinel s

/-- States reachable from a fresh book by any sequence of the four public
operations (order prices are representable ticks, as `Tick` is int64 in the
source). -/
inductive Reach : Book → Prop where
  | init : Reach Book.init
  | limit (b : Book) (o : NewOrder) :
      Reach b → MINP ≤ o.price → o.price ≤ MAXP → Reach (submit_limit b o).book
  | market (b : Book) (o : NewOrder) : Reach b → Reach (submit_market b o).book
  | cancelStep (b : Book) (id : Nat) : Reach b → Reach (cancel b id).1
  | modifyStep (b : Book) (o : NewOrder) :
      Reach b → MINP ≤ o.price → o.price ≤ MAXP → Reach (modify b o).book

/-- States reachable when, in addition, every submitted order id is fresh
(not currently indexed) at submission time. -/
inductive ReachF : Book → Prop where
  | init : ReachF Book.init
  | limit (b : Book) (o : NewOrder) :
      ReachF b → MINP ≤ o.price → o.price ≤ MAXP →
      idFind b.id_index o.id = none → ReachF (submit_limit b o).book
  | market (b : Book) (o : NewOrder) : ReachF b → ReachF (submit_market b o).book
  | cancelStep (b : Book) (id : Nat) : ReachF b → ReachF (cancel b id).1
  | modifyStep (b : Book) (o : NewOrder) :
      ReachF b → MINP ≤ o.price → o.price ≤ MAXP → ReachF (modify b o).book

/-! ### Concrete states for the spec's worked scenarios -/

/-- Shorthand constructor for the order messages of the concrete scenarios. -/
def mkO (seq ts id user : Nat) (side : Side) (price : Tick) (qty : Quantity)
    (flags : Nat) : NewOrder :=
  ⟨seq, ts, id, user, side, price, qty, flags⟩

/-- Scenario S1: bids rested at 105 in arrival order id 101 qty 5, id 102
qty 7, id 103 qty 3. -/
def bS1 : Book :=
  (submit_limit (submit_limit (submit_limit Book.init
    (mkO 0 0 101 1 Side.Bid 105 5 0)).book
    (mkO 1 1 102 2 Side.Bid 105 7 0)).book
    (mkO 2 2 103 3 Side.Bid 105 3 0)).book

/-- Scenario S1's taker: a market sell of qty 10. -/
def oS1 : NewOrder := mkO 3 3 200 9 Side.Ask 0 10 0

/-- A book with one resting ask, id 1 user 1 at 100 qty 5. -/
def bC3 : Book := (submit_limit Book.init (mkO 0 0 1 1 Side.Ask 100 5 0)).book

/-- A crossing buy limit, id 2 user 2 at 105 qty 3, against `bC3`. -/
def oC3 : NewOrder := mkO 1 1 2 2 Side.Bid 105 3 0

/-- A buy limit at 100 qty 5 submitted to the empty book. -/
def oC4 : NewOrder := mkO 0 0 1 1 Side.Bid 100 5 0

/-- A book with one resting bid, id 7 user 1 at 100 qty 5. -/
def bC5 : Book := (submit_limit Book.init (mkO 0 0 7 1 Side.Bid 100 5 0)).book

/-- A market buy of qty 10 that reuses order id 7, from another user. -/
def oC5 : NewOrder := mkO 1 1 7 2 Side.Bid 0 10 0

/-- Scenario S3's taker: a market buy of qty 10 on the empty book. -/
def oS3 : NewOrder := mkO 0 0 1 1 Side.Bid 0 10 0

/-- Scenario S6: a resting ask from user 9001 at 105 qty 5 (order id 11). -/
def bS6 : Book := (submit_limit Book.init (mkO 0 0 11 9001 Side.Ask 105 5 0)).book

/-- Scenario S6's taker: a market buy of qty 10 from the same user 9001
carrying the STP flag. -/
def oS6 : NewOrder := mkO 1 1 12 9001 Side.Bid 0 10 STP

/-- A book with one resting bid, id 1 user 1 at 100 qty 5 (ts 0, flags 0). -/
def bC7 : Book := (submit_limit Book.init (mkO 0 0 1 1 Side.Bid 100 5 0)).book

/-- A price-changing replacement for order id 1, submitted by user 2. -/
def rC7 : NewOrder := mkO 1 1 1 2 Side.Bid 101 5 0

/-- A same-price replacement for order id 1: qty 9, ts 7, flags 4. -/
def rC8 : NewOrder := mkO 0 7 1 1 Side.Bid 100 9 4

/-- A book built by an id-reusing history: submit bid id 1 at 100, submit
bid id 1 again at 101 (overwriting the index entry), then cancel id 1. -/
def bC10 : Book :=
  (cancel (submit_limit (submit_limit Book.init
    (mkO 0 0 1 1 Side.Bid 100 5 0)).book
    (mkO 1 1 1 1 Side.Bid 101 4 0)).book 1).1

/-! ### Lemmas about the list-level helpers -/

theorem sumQty_append (l1 l2 : List OrderNode) :
    sumQty (l1 ++ l2) = sumQty l1 + sumQty l2 := by
  induction l1 with
  | nil => simp [sumQty]
  | cons n ns ih =>
    show sumQty (n :: (ns ++ l2)) = sumQty (n :: ns) + sumQty l2
    simp only [sumQty, ih]
    ring

theorem sumQty_removeByTag (l : List OrderNode) (t : Nat) :
    sumQty (removeByTag l t) = sumQty l - qtyOfTag l t := by
  induction l with
  | nil => simp [removeByTag, qtyOfTag, sumQty]
  | cons n ns ih =>
    by_cases h : n.tag = t <;> simp only [removeByTag, qtyOfTag, h, if_true, if_false, sumQty, ih] <;> ring

theorem mem_removeByTag {l : List OrderNode} {t : Nat} {n : OrderNode}
    (h : n ∈ removeByTag l t) : n ∈ l := by
  induction l with
  | nil => simpa [removeByTag] using h
  | cons m ms ih =>
    by_cases hm : m.tag = t
    · simp only [removeByTag, hm, if_true] at h
      exact List.mem_cons_of_mem _ h
    · simp only [removeByTag, hm, if_false, List.mem_cons] at h
      rcases h with h | h
      · exact h ▸ List.mem_cons_self _ _
      · exact List.mem_cons_of_mem _ (ih h)

theorem sumQty_updateByTag {l : List OrderNode} {t : Nat}
    (h : ∃ n ∈ l, n.tag = t) (q : Quantity) (ts fl : Nat) :
    sumQty (updateByTag l t q ts fl) = sumQty l + (q - qtyOfTag l t) := by
  induction l with
  | nil => simp at h
  | cons m ms ih =>
    by_cases hm : m.tag = t
    · simp only [updateByTag, qtyOfTag, hm, if_true, sumQty]; ring
    · rcases h with ⟨n, hn, hnt⟩
      rcases List.mem_cons.mp hn with rfl | hn'
      · exact absurd hnt hm
      · simp only [updateByTag, qtyOfTag, hm, if_false, sumQty, ih ⟨n, hn', hnt⟩]; ring

theorem mem_updateByTag {l : List OrderNode} {t : Nat} {q : Quantity} {ts fl : Nat}
    {x : OrderNode} (h : x ∈ updateByTag l t q ts fl) :
    (∃ n ∈ l, x = { n with qty := q, ts := ts, flags := fl }) ∨ x ∈ l := by
  induction l with
  | nil => simp [updateByTag] at h
  | cons m ms ih =>
    by_cases hm : m.tag = t
    · simp only [updateByTag] at h
      rw [if_pos hm] at h
      rcases List.mem_cons.mp h with rfl | h
      · exact Or.inl ⟨m, List.mem_cons_self _ _, rfl⟩
      · exact Or.inr (List.mem_cons_of_mem _ h)
    · simp only [updateByTag] at h
      rw [if_neg hm] at h
      rcases List.mem_cons.mp h with rfl | h
      · exact Or.inr (List.mem_cons_self _ _)
      · rcases ih h with ⟨n, hn, hx⟩ | h'
        · exact Or.inl ⟨n, List.mem_cons_of_mem _ hn, hx⟩
        · exact Or.inr (List.mem_cons_of_mem _ h')

theorem updateByTag_tagid (l : List OrderNode) (t : Nat) (q : Quantity) (ts fl : Nat) :
    (updateByTag l t q ts fl).map (fun n => (n.tag, n.id)) =
      l.map (fun n => (n.tag, n.id)) := by
  induction l with
  | nil => simp [updateByTag]
  | cons m ms ih =>
    by_cases hm : m.tag = t <;> simp [updateByTag, hm, ih]

theorem map_upd_of_no_tag {l : List OrderNode} {t : Nat}
    (h : ∀ n ∈ l, n.tag ≠ t) (q : Quantity) (ts fl : Nat) :
    l.map (fun n => if n.tag = t then { n with qty := q, ts := ts, flags := fl } else n) = l := by
  induction l with
  | nil => rfl
  | cons m ms ih =>
    simp only [List.map_cons]
    rw [if_neg (h m (List.mem_cons_self _ _)), ih fun n hn => h n (List.mem_cons_of_mem _ hn)]

theorem updateByTag_eq_map {l : List OrderNode} {t : Nat}
    (hnd : (l.map OrderNode.tag).Nodup) (q : Quantity) (ts fl : Nat) :
    updateByTag l t q ts fl =
      l.map (fun n => if n.tag = t then { n with qty := q, ts := ts, flags := fl } else n) := by
  induction l with
  | nil => simp [updateByTag]
  | cons m ms ih =>
    simp only [List.map_cons, List.nodup_cons] at hnd
    by_cases hm : m.tag = t
    · have hno : ∀ n ∈ ms, n.tag ≠ t := by
        intro n hn he
        exact hnd.1 (hm ▸ he ▸ List.mem_map_of_mem OrderNode.tag hn)
      simp only [updateByTag, List.map_cons]
      rw [if_pos hm, if_pos hm, map_upd_of_no_tag hno]
    · simp only [updateByTag, List.map_cons]
      rw [if_neg hm, if_neg hm, ih hnd.2]

/-! ### Lemmas about ladder lookup and update -/

theorem findLevel_setLevel_self (ls : List (Tick × LevelFIFO)) (px : Tick) (L : LevelFIFO) :
    findLevel (setLevel ls px L) px = L := by
  induction ls with
  | nil => simp [setLevel, findLevel]
  | cons pM rest ih =>
    obtain ⟨p, M⟩ := pM
    by_cases h1 : px < p
    · simp [setLevel, findLevel, h1]
    · by_cases h2 : p = px
      · simp [setLevel, findLevel, h1, h2]
      · simp [setLevel, findLevel, h1, h2, ih]

theorem findLevel_setLevel_ne (ls : List (Tick × LevelFIFO)) (px : Tick) (L : LevelFIFO)
    {q : Tick} (h : q ≠ px) : findLevel (setLevel ls px L) q = findLevel ls q := by
  have hpx : px ≠ q := Ne.symm h
  induction ls with
  | nil =>
    simp only [setLevel, findLevel]
    rw [if_neg hpx]
  | cons pM rest ih =>
    obtain ⟨p, M⟩ := pM
    by_cases h1 : px < p
    · simp [setLevel, findLevel, h1, hpx]
    · by_cases h2 : p = px
      · subst h2
        simp [setLevel, findLevel, h1, hpx]
      · by_cases h3 : p = q
        · subst h3
          simp [setLevel, findLevel, h1, h2]
        · simp [setLevel, findLevel, h1, h2, h3, ih]

theorem mem_setLevel {ls : List (Tick × LevelFIFO)} {px : Tick} {L : LevelFIFO}
    {x : Tick × LevelFIFO} (h : x ∈ setLevel ls px L) : x = (px, L) ∨ x ∈ ls := by
  induction ls with
  | nil =>
    simp only [setLevel] at h
    exact Or.inl (List.mem_singleton.mp h)
  | cons pM rest ih =>
    obtain ⟨p, M⟩ := pM
    simp only [setLevel] at h
    by_cases h1 : px < p
    · rw [if_pos h1] at h
      rcases List.mem_cons.mp h with rfl | h
      · exact Or.inl rfl
      · exact Or.inr h
    · rw [if_neg h1] at h
      by_cases h2 : p = px
      · rw [if_pos h2] at h
        rcases List.mem_cons.mp h with rfl | h
        · exact Or.inl rfl
        · exact Or.inr (List.mem_cons_of_mem _ h)
      · rw [if_neg h2] at h
        rcases List.mem_cons.mp h with rfl | h
        · exact Or.inr (List.mem_cons_self _ _)
        · rcases ih h with h' | h'
          · exact Or.inl h'
          · exact Or.inr (List.mem_cons_of_mem _ h')

theorem mem_of_findLevel_ne {ls : List (Tick × LevelFIFO)} {p : Tick}
    (h : findLevel ls p ≠ LevelFIFO.init) : (p, findLevel ls p) ∈ ls := by
  induction ls with
  | nil => simp [findLevel] at h
  | cons qM rest ih =>
    obtain ⟨q, M⟩ := qM
    by_cases hq : q = p
    · subst hq
      simp [findLevel]
    · simp only [findLevel, hq, if_false] at h ⊢
      exact List.mem_cons_of_mem _ (ih h)

theorem mem_of_findLevel_orders_ne {ls : List (Tick × LevelFIFO)} {p : Tick}
    (h : (findLevel ls p).orders ≠ []) : (p, findLevel ls p) ∈ ls := by
  refine mem_of_findLevel_ne fun he => h ?_
  rw [he]
  rfl

/-- Keys of a ladder are strictly ascending, as `std::map` keeps them. -/
def SortedKeys (ls : List (Tick × LevelFIFO)) : Prop :=
  ls.Pairwise (fun a b => a.1 < b.1)

theorem sorted_setLevel {ls : List (Tick × LevelFIFO)} {px : Tick} {L : LevelFIFO}
    (hs : SortedKeys ls) : SortedKeys (setLevel ls px L) := by
  induction ls with
  | nil => simp [setLevel, SortedKeys]
  | cons pM rest ih =>
    obtain ⟨p, M⟩ := pM
    rcases List.pairwise_cons.mp hs with ⟨hhead, htail⟩
    simp only [setLevel]
    by_cases h1 : px < p
    · rw [if_pos h1]
      refine List.pairwise_cons.mpr ⟨?_, hs⟩
      intro x hx
      rcases List.mem_cons.mp hx with rfl | hx
      · exact h1
      · exact h1.trans (hhead x hx)
    · rw [if_neg h1]
      by_cases h2 : p = px
      · subst h2
        rw [if_pos rfl]
        exact List.pairwise_cons.mpr ⟨hhead, htail⟩
      · rw [if_neg h2]
        refine List.pairwise_cons.mpr ⟨?_, ih htail⟩
        intro x hx
        rcases mem_setLevel hx with rfl | hx
        · exact lt_of_le_of_ne (not_lt.mp h1) h2
        · exact hhead x hx

theorem findLevel_of_mem {ls : List (Tick × LevelFIFO)} (hs : SortedKeys ls)
    {p : Tick} {L : LevelFIFO} (h : (p, L) ∈ ls) : findLevel ls p = L := by
  induction ls with
  | nil => simp at h
  | cons qM rest ih =>
    obtain ⟨q, M⟩ := qM
    rcases List.pairwise_cons.mp hs with ⟨hhead, htail⟩
    rcases List.mem_cons.mp h with heq | h
    · cases heq
      simp [findLevel]
    · have hq : q ≠ p := ne_of_lt (hhead _ h)
      simp only [findLevel]
      rw [if_neg hq]
      exact ih htail h

theorem next_ask_after_le {ls : List (Tick × LevelFIFO)} {px : Tick}
    (hs : SortedKeys ls) {p : Tick}
    (hp : (findLevel ls p).orders ≠ []) (hlt : px < p) : next_ask_after ls px ≤ p := by
  induction ls with
  | nil => simp [findLevel, LevelFIFO.init] at hp
  | cons qM rest ih =>
    obtain ⟨q, M⟩ := qM
    rcases List.pairwise_cons.mp hs with ⟨hhead, htail⟩
    simp only [next_ask_after]
    by_cases hc : px < q ∧ M.orders ≠ []
    · rw [if_pos hc]
      by_cases hq : q = p
      · exact le_of_eq hq
      · have hp' : (findLevel rest p).orders ≠ [] := by
          simpa [findLevel, hq] using hp
        exact le_of_lt (hhead _ (mem_of_findLevel_orders_ne hp'))
    · rw [if_neg hc]
      by_cases hq : q = p
      · subst hq
        have hM : M.orders ≠ [] := by simpa [findLevel] using hp
        exact absurd ⟨hlt, hM⟩ hc
      · have hp' : (findLevel rest p).orders ≠ [] := by simpa [findLevel, hq] using hp
        exact ih htail hp'

theorem next_ask_after_attained {ls : List (Tick × LevelFIFO)}
    (hs : SortedKeys ls) (px : Tick) :
    next_ask_after ls px = MAXP ∨
      (px < next_ask_after ls px ∧ (findLevel ls (next_ask_after ls px)).orders ≠ []) := by
  induction ls with
  | nil => exact Or.inl rfl
  | cons qM rest ih =>
    obtain ⟨q, M⟩ := qM
    rcases List.pairwise_cons.mp hs with ⟨hhead, htail⟩
    simp only [next_ask_after]
    by_cases hc : px < q ∧ M.orders ≠ []
    · rw [if_pos hc]
      exact Or.inr ⟨hc.1, by simpa [findLevel] using hc.2⟩
    · rw [if_neg hc]
      rcases ih htail with h | ⟨h1, h2⟩
      · exact Or.inl h
      · refine Or.inr ⟨h1, ?_⟩
        have hne : q ≠ next_ask_after rest px :=
          ne_of_lt (hhead _ (mem_of_findLevel_orders_ne h2))
        simpa [findLevel, hne] using h2

theorem next_bid_before_attained {ls : List (Tick × LevelFIFO)}
    (hs : SortedKeys ls) (px : Tick) :
    next_bid_before ls px = MINP ∨
      (next_bid_before ls px < px ∧
        (findLevel ls (next_bid_before ls px)).orders ≠ []) := by
  induction ls with
  | nil => exact Or.inl rfl
  | cons qM rest ih =>
    obtain ⟨q, M⟩ := qM
    rcases List.pairwise_cons.mp hs with ⟨hhead, htail⟩
    simp only [next_bid_before]
    by_cases hr : next_bid_before rest px ≠ MINP
    · rw [if_pos hr]
      rcases ih htail with h | ⟨h1, h2⟩
      · exact absurd h hr
      · refine Or.inr ⟨h1, ?_⟩
        have hne : q ≠ next_bid_before rest px :=
          ne_of_lt (hhead _ (mem_of_findLevel_orders_ne h2))
        simpa [findLevel, hne] using h2
    · rw [if_neg hr]
      by_cases hc : q < px ∧ M.orders ≠ []
      · rw [if_pos hc]
        exact Or.inr ⟨hc.1, by simpa [findLevel] using hc.2⟩
      · rw [if_neg hc]
        exact Or.inl rfl

theorem next_bid_before_ge {ls : List (Tick × LevelFIFO)} {px : Tick}
    (hs : SortedKeys ls) (hband : ∀ pL ∈ ls, MINP ≤ pL.1) {p : Tick}
    (hp : (findLevel ls p).orders ≠ []) (hlt : p < px) : p ≤ next_bid_before ls px := by
  induction ls with
  | nil => simp [findLevel, LevelFIFO.init] at hp
  | cons qM rest ih =>
    obtain ⟨q, M⟩ := qM
    rcases List.pairwise_cons.mp hs with ⟨hhead, htail⟩
    have hband' : ∀ pL ∈ rest, MINP ≤ pL.1 :=
      fun x hx => hband x (List.mem_cons_of_mem _ hx)
    simp only [next_bid_before]
    by_cases hq : q = p
    · subst hq
      have hM : M.orders ≠ [] := by simpa [findLevel] using hp
      by_cases hr : next_bid_before rest px ≠ MINP
      · rw [if_pos hr]
        rcases next_bid_before_attained htail px with h | ⟨_, h2⟩
        · exact absurd h hr
        · exact le_of_lt (hhead _ (mem_of_findLevel_orders_ne h2))
      · rw [if_neg hr, if_pos ⟨hlt, hM⟩]
    · have hp' : (findLevel rest p).orders ≠ [] := by simpa [findLevel, hq] using hp
      have hge := ih htail hband' hp'
      by_cases hr : next_bid_before rest px ≠ MINP
      · rw [if_pos hr]
        exact hge
      · rw [if_neg hr]
        push_neg at hr
        rw [hr] at hge
        by_cases hc : q < px ∧ M.orders ≠ []
        · rw [if_pos hc]
          exact le_trans hge (hband (q, M) (List.mem_cons_self _ _))
        · rw [if_neg hc]
          exact hge

/-! ### Lemmas about the id index -/

theorem idFind_mem {l : List (Nat × IdEntry)} {id : Nat} {e : IdEntry}
    (h : idFind l id = some e) : (id, e) ∈ l := by
  induction l with
  | nil => simp [idFind] at h
  | cons kf rest ih =>
    obtain ⟨k, f⟩ := kf
    by_cases hk : k = id
    · subst hk
      simp only [idFind, if_pos rfl] at h
      cases h
      exact List.mem_cons_self _ _
    · simp only [idFind] at h
      rw [if_neg hk] at h
      exact List.mem_cons_of_mem _ (ih h)

theorem mem_idErase {l : List (Nat × IdEntry)} {k : Nat} {x : Nat × IdEntry}
    (h : x ∈ idErase l k) : x ∈ l := by
  induction l with
  | nil => simpa [idErase] using h
  | cons kf rest ih =>
    obtain ⟨k0, f⟩ := kf
    simp only [idErase] at h
    by_cases hk : k0 = k
    · rw [if_pos hk] at h
      exact List.mem_cons_of_mem _ h
    · rw [if_neg hk] at h
      rcases List.mem_cons.mp h with rfl | h
      · exact List.mem_cons_self _ _
      · exact List.mem_cons_of_mem _ (ih h)

theorem idFind_idErase_ne {l : List (Nat × IdEntry)} {k id : Nat} (h : id ≠ k) :
    idFind (idErase l k) id = idFind l id := by
  induction l with
  | nil => simp [idErase]
  | cons kf rest ih =>
    obtain ⟨k0, f⟩ := kf
    simp only [idErase]
    by_cases hk : k0 = k
    · rw [if_pos hk]
      subst hk
      simp only [idFind]
      rw [if_neg fun he => h he.symm]
    · rw [if_neg hk]
      simp only [idFind]
      by_cases hk0 : k0 = id
      · rw [if_pos hk0, if_pos hk0]
      · rw [if_neg hk0, if_neg hk0, ih]

theorem idFind_none_of_not_mem_keys {l : List (Nat × IdEntry)} {id : Nat}
    (h : id ∉ l.map Prod.fst) : idFind l id = none := by
  induction l with
  | nil => rfl
  | cons kf rest ih =>
    obtain ⟨k0, f⟩ := kf
    simp only [List.map_cons, List.mem_cons] at h
    push_neg at h
    simp only [idFind]
    rw [if_neg fun he => h.1 he.symm]
    exact ih h.2

theorem idFind_idErase_self {l : List (Nat × IdEntry)} {k : Nat}
    (hnd : (l.map Prod.fst).Nodup) : idFind (idErase l k) k = none := by
  induction l with
  | nil => rfl
  | cons kf rest ih =>
    obtain ⟨k0, f⟩ := kf
    simp only [List.map_cons, List.nodup_cons] at hnd
    simp only [idErase]
    by_cases hk : k0 = k
    · rw [if_pos hk]
      subst hk
      exact idFind_none_of_not_mem_keys hnd.1
    · rw [if_neg hk]
      simp only [idFind]
      rw [if_neg hk]
      exact ih hnd.2

theorem idFind_none_idErase {l : List (Nat × IdEntry)} {k id : Nat}
    (h : idFind l id = none) : idFind (idErase l k) id = none := by
  induction l with
  | nil => rfl
  | cons kf rest ih =>
    obtain ⟨k0, f⟩ := kf
    simp only [idFind] at h
    by_cases hk0 : k0 = id
    · rw [if_pos hk0] at h
      cases h
    · rw [if_neg hk0] at h
      simp only [idErase]
      by_cases hk : k0 = k
      · rw [if_pos hk]
        exact h
      · rw [if_neg hk]
        simp only [idFind]
        rw [if_neg hk0]
        exact ih h

theorem nodup_keys_idErase {l : List (Nat × IdEntry)} {k : Nat}
    (hnd : (l.map Prod.fst).Nodup) : ((idErase l k).map Prod.fst).Nodup := by
  induction l with
  | nil => simp [idErase]
  | cons kf rest ih =>
    obtain ⟨k0, f⟩ := kf
    simp only [List.map_cons, List.nodup_cons] at hnd
    simp only [idErase]
    by_cases hk : k0 = k
    · rw [if_pos hk]
      exact hnd.2
    · rw [if_neg hk]
      simp only [List.map_cons, List.nodup_cons]
      refine ⟨fun hm => ?_, ih hnd.2⟩
      rcases List.mem_map.mp hm with ⟨x, hx, hfst⟩
      exact hnd.1 (hfst ▸ List.mem_map_of_mem Prod.fst (mem_idErase hx))

theorem mem_idInsert {l : List (Nat × IdEntry)} {id : Nat} {e : IdEntry}
    {x : Nat × IdEntry} (h : x ∈ idInsert l id e) : x = (id, e) ∨ x ∈ l := by
  induction l with
  | nil =>
    simp only [idInsert] at h
    exact Or.inl (List.mem_singleton.mp h)
  | cons kf rest ih =>
    obtain ⟨k0, f⟩ := kf
    simp only [idInsert] at h
    by_cases hk : k0 = id
    · rw [if_pos hk] at h
      rcases List.mem_cons.mp h with rfl | h
      · exact Or.inl rfl
      · exact Or.inr (List.mem_cons_of_mem _ h)
    · rw [if_neg hk] at h
      rcases List.mem_cons.mp h with rfl | h
      · exact Or.inr (List.mem_cons_self _ _)
      · rcases ih h with h' | h'
        · exact Or.inl h'
        · exact Or.inr (List.mem_cons_of_mem _ h')

theorem idFind_idInsert_self (l : List (Nat × IdEntry)) (id : Nat) (e : IdEntry) :
    idFind (idInsert l id e) id = some e := by
  induction l with
  | nil => simp [idInsert, idFind]
  | cons kf rest ih =>
    obtain ⟨k0, f⟩ := kf
    simp only [idInsert]
    by_cases hk : k0 = id
    · rw [if_pos hk]
      simp [idFind]
    · rw [if_neg hk]
      simp only [idFind]
      rw [if_neg hk]
      exact ih

theorem idFind_idInsert_ne {l : List (Nat × IdEntry)} {id : Nat} {e : IdEntry}
    {q : Nat} (h : q ≠ id) : idFind (idInsert l id e) q = idFind l q := by
  induction l with
  | nil =>
    simp only [idInsert, idFind]
    rw [if_neg fun he => h he.symm]
  | cons kf rest ih =>
    obtain ⟨k0, f⟩ := kf
    simp only [idInsert]
    by_cases hk : k0 = id
    · rw [if_pos hk]
      subst hk
      simp only [idFind]
      rw [if_neg fun he => h he.symm]
      by_cases hkq : k0 = q
      · exact absurd hkq fun he => h (he ▸ rfl)
      · rw [if_neg hkq]
    · rw [if_neg hk]
      simp only [idFind]
      by_cases hkq : k0 = q
      · rw [if_pos hkq, if_pos hkq]
      · rw [if_neg hkq, if_neg hkq, ih]

theorem nodup_keys_idInsert {l : List (Nat × IdEntry)} {id : Nat} {e : IdEntry}
    (hnd : (l.map Prod.fst).Nodup) : ((idInsert l id e).map Prod.fst).Nodup := by
  induction l with
  | nil => simp [idInsert]
  | cons kf rest ih =>
    obtain ⟨k0, f⟩ := kf
    simp only [List.map_cons, List.nodup_cons] at hnd
    simp only [idInsert]
    by_cases hk : k0 = id
    · rw [if_pos hk]
      subst hk
      simp only [List.map_cons, List.nodup_cons]
      exact hnd
    · rw [if_neg hk]
      simp only [List.map_cons, List.nodup_cons]
      refine ⟨fun hm => ?_, ih hnd.2⟩
      rcases List.mem_map.mp hm with ⟨x, hx, hfst⟩
      rcases mem_idInsert hx with rfl | hx'
      · exact hk hfst.symm
      · exact hnd.1 (hfst ▸ List.mem_map_of_mem Prod.fst hx')

/-! ### Node counting -/

theorem nodeCount_cons (pL : Tick × LevelFIFO) (ls : List (Tick × LevelFIFO)) :
    nodeCount (pL :: ls) = pL.2.orders.length + nodeCount ls := by
  simp [nodeCount]

theorem nodeCount_setLevel {ls : List (Tick × LevelFIFO)} (hs : SortedKeys ls)
    {px : Tick} {M : LevelFIFO} (hmem : (px, M) ∈ ls) (L : LevelFIFO) :
    nodeCount (setLevel ls px L) + M.orders.length = nodeCount ls + L.orders.length := by
  induction ls with
  | nil => simp at hmem
  | cons qN rest ih =>
    obtain ⟨q, N⟩ := qN
    rcases List.pairwise_cons.mp hs with ⟨hhead, htail⟩
    simp only [setLevel]
    by_cases h1 : px < q
    · exfalso
      rcases List.mem_cons.mp hmem with heq | hmem'
      · cases heq
        exact lt_irrefl _ h1
      · exact lt_irrefl _ (h1.trans (hhead _ hmem'))
    · rw [if_neg h1]
      by_cases h2 : q = px
      · subst h2
        rw [if_pos rfl]
        have hMN : M = N := by
          rcases List.mem_cons.mp hmem with heq | hmem'
          · cases heq
            rfl
          · exact absurd (hhead _ hmem') (lt_irrefl _)
        subst hMN
        simp only [nodeCount_cons]
        omega
      · rw [if_neg h2]
        have hmem' : (px, M) ∈ rest := by
          rcases List.mem_cons.mp hmem with heq | hmem'
          · cases heq
            exact absurd rfl h2
          · exact hmem'
        simp only [nodeCount_cons]
        have := ih htail hmem'
        omega

/-! ### Well-formedness invariants -/

/-- Structural invariants of one ladder: sorted in-band keys, cached level
totals, positive linked quantities, per-level distinct node tags. -/
structure LevelsWF (ls : List (Tick × LevelFIFO)) : Prop where
  sorted : SortedKeys ls
  band : ∀ pL ∈ ls, MINP ≤ pL.1 ∧ pL.1 ≤ MAXP
  total : ∀ pL ∈ ls, pL.2.total_qty = sumQty pL.2.orders
  pos : ∀ pL ∈ ls, ∀ n ∈ pL.2.orders, 0 < n.qty
  tagsnd : ∀ pL ∈ ls, (pL.2.orders.map OrderNode.tag).Nodup

/-- Cached-best invariant of the bid ladder: the cache bounds every non-empty
price from above and, unless it is the sentinel, sits on a non-empty level. -/
structure BidBestInv (sb : SideBook) : Prop where
  ub : ∀ p : Tick, (findLevel sb.levels p).orders ≠ [] → p ≤ sb.best_bid
  att : sb.best_bid = MINP ∨ (findLevel sb.levels sb.best_bid).orders ≠ []

/-- Cached-best invariant of the ask ladder, mirror of `BidBestInv`. -/
structure AskBestInv (sb : SideBook) : Prop where
  lb : ∀ p : Tick, (findLevel sb.levels p).orders ≠ [] → sb.best_ask ≤ p
  att : sb.best_ask = MAXP ∨ (findLevel sb.levels sb.best_ask).orders ≠ []

/-- All node tags on a ladder are below the allocation counter. -/
def TagsBelow (ls : List (Tick × LevelFIFO)) (t : Nat) : Prop :=
  ∀ pL ∈ ls, ∀ n ∈ pL.2.orders, n.tag < t

/-- Every id-index entry references a node that is currently linked at the
recorded side and price, carries the recorded tag, and bears the indexed id. -/
def EntryInv (b : Book) : Prop :=
  ∀ ke ∈ b.id_index, ∃ n ∈ (findLevel (b.sideLevels ke.2.side) ke.2.px).orders,
    n.tag = ke.2.tag ∧ n.id = ke.1

/-- Every linked node is indexed under its id, and the entry points back at
it.  This holds only along fresh-id histories (`ReachF`). -/
def FreshInv (b : Book) : Prop :=
  ∀ s : Side, ∀ px : Tick, ∀ n ∈ (findLevel (b.sideLevels s) px).orders,
    idFind b.id_index n.id = some ⟨s, px, n.tag⟩

/-- The full state invariant maintained by every operation. -/
structure WF (b : Book) : Prop where
  lvlB : LevelsWF b.bids.levels
  lvlA : LevelsWF b.asks.levels
  bestB : BidBestInv b.bids
  bestA : AskBestInv b.asks
  tagsB : TagsBelow b.bids.levels b.nextTag
  tagsA : TagsBelow b.asks.levels b.nextTag
  keys : (b.id_index.map Prod.fst).Nodup
  entry : EntryInv b

theorem WF.lvl {b : Book} (hw : WF b) : ∀ s : Side, LevelsWF (b.sideLevels s)
  | .Bid => hw.lvlB
  | .Ask => hw.lvlA

theorem WF.tags {b : Book} (hw : WF b) : ∀ s : Side, TagsBelow (b.sideLevels s) b.nextTag
  | .Bid => hw.tagsB
  | .Ask => hw.tagsA

/-! ### Field-level facts about the book accessors -/

theorem sideLevels_setSideLevel_same (b : Book) (s : Side) (px : Tick) (L : LevelFIFO) :
    (b.setSideLevel s px L).sideLevels s = setLevel (b.sideLevels s) px L := by
  cases s <;> rfl

theorem sideLevels_setSideLevel_other {s s' : Side} (h : s' ≠ s) (b : Book)
    (px : Tick) (L : LevelFIFO) :
    (b.setSideLevel s px L).sideLevels s' = b.sideLevels s' := by
  cases s <;> cases s' <;> first | rfl | exact absurd rfl h

theorem sideBest_setSideLevel (b : Book) (s : Side) (px : Tick) (L : LevelFIFO)
    (s' : Side) : (b.setSideLevel s px L).sideBest s' = b.sideBest s' := by
  cases s <;> cases s' <;> rfl

theorem id_index_setSideLevel (b : Book) (s : Side) (px : Tick) (L : LevelFIFO) :
    (b.setSideLevel s px L).id_index = b.id_index := by
  cases s <;> rfl

theorem nextTag_setSideLevel (b : Book) (s : Side) (px : Tick) (L : LevelFIFO) :
    (b.setSideLevel s px L).nextTag = b.nextTag := by
  cases s <;> rfl

theorem sideLevels_setSideBest (b : Book) (s : Side) (px : Tick) (s' : Side) :
    (b.setSideBest s px).sideLevels s' = b.sideLevels s' := by
  cases s <;> cases s' <;> rfl

theorem sideBest_setSideBest_same (b : Book) (s : Side) (px : Tick) :
    (b.setSideBest s px).sideBest s = px := by
  cases s <;> rfl

theorem sideBest_setSideBest_other {s s' : Side} (h : s' ≠ s) (b : Book) (px : Tick) :
    (b.setSideBest s px).sideBest s' = b.sideBest s' := by
  cases s <;> cases s' <;> first | rfl | exact absurd rfl h

theorem id_index_setSideBest (b : Book) (s : Side) (px : Tick) :
    (b.setSideBest s px).id_index = b.id_index := by
  cases s <;> rfl

theorem nextTag_setSideBest (b : Book) (s : Side) (px : Tick) :
    (b.setSideBest s px).nextTag = b.nextTag := by
  cases s <;> rfl

theorem sideLevels_eraseId (b : Book) (id : Nat) (s : Side) :
    (b.eraseId id).sideLevels s = b.sideLevels s := by
  cases s <;> rfl

theorem sideBest_eraseId (b : Book) (id : Nat) (s : Side) :
    (b.eraseId id).sideBest s = b.sideBest s := by
  cases s <;> rfl

theorem sideNext_levels (b : Book) (s : Side) (px : Tick) :
    b.sideNext s px =
      (match s with
       | Side.Bid => next_bid_before (b.sideLevels Side.Bid) px
       | Side.Ask => next_ask_after (b.sideLevels Side.Ask) px) := by
  cases s <;> rfl

/-! ### Facts read off a `LevelsWF` ladder through `findLevel` -/

theorem findLevel_total {ls : List (Tick × LevelFIFO)} (hw : LevelsWF ls) (px : Tick) :
    (findLevel ls px).total_qty = sumQty (findLevel ls px).orders := by
  by_cases hp : findLevel ls px = LevelFIFO.init
  · rw [hp]
    rfl
  · exact hw.total _ (mem_of_findLevel_ne hp)

theorem findLevel_pos {ls : List (Tick × LevelFIFO)} (hw : LevelsWF ls) (px : Tick) :
    ∀ n ∈ (findLevel ls px).orders, 0 < n.qty := by
  by_cases hp : findLevel ls px = LevelFIFO.init
  · rw [hp]
    intro n hn
    simp [LevelFIFO.init] at hn
  · exact hw.pos _ (mem_of_findLevel_ne hp)

theorem findLevel_tagsnd {ls : List (Tick × LevelFIFO)} (hw : LevelsWF ls) (px : Tick) :
    ((findLevel ls px).orders.map OrderNode.tag).Nodup := by
  by_cases hp : findLevel ls px = LevelFIFO.init
  · rw [hp]
    simp [LevelFIFO.init]
  · exact hw.tagsnd _ (mem_of_findLevel_ne hp)

theorem findLevel_tags_lt {ls : List (Tick × LevelFIFO)} {T : Nat}
    (htb : TagsBelow ls T) (px : Tick) :
    ∀ n ∈ (findLevel ls px).orders, n.tag < T := by
  by_cases hp : findLevel ls px = LevelFIFO.init
  · rw [hp]
    intro n hn
    simp [LevelFIFO.init] at hn
  · exact htb _ (mem_of_findLevel_ne hp)

/-! ### `LevelsWF` preservation under the four level transformations -/

theorem levelsWF_erase {ls : List (Tick × LevelFIFO)} (hw : LevelsWF ls)
    {px : Tick} {h : OrderNode} {rest : List OrderNode}
    (horders : (findLevel ls px).orders = h :: rest) :
    LevelsWF (setLevel ls px ⟨rest, (findLevel ls px).total_qty - h.qty⟩) := by
  have hmem : (px, findLevel ls px) ∈ ls :=
    mem_of_findLevel_orders_ne (by rw [horders]; exact List.cons_ne_nil _ _)
  have htot : (findLevel ls px).total_qty = h.qty + sumQty rest := by
    rw [findLevel_total hw, horders]
    rfl
  constructor
  · exact sorted_setLevel hw.sorted
  · intro pL hpL
    rcases mem_setLevel hpL with rfl | hpL
    · exact hw.band (px, findLevel ls px) hmem
    · exact hw.band _ hpL
  · intro pL hpL
    rcases mem_setLevel hpL with rfl | hpL
    · show (findLevel ls px).total_qty - h.qty = sumQty rest
      rw [htot]
      ring
    · exact hw.total _ hpL
  · intro pL hpL n hn
    rcases mem_setLevel hpL with rfl | hpL
    · exact hw.pos _ hmem n (by rw [horders]; exact List.mem_cons_of_mem _ hn)
    · exact hw.pos _ hpL n hn
  · intro pL hpL
    rcases mem_setLevel hpL with rfl | hpL
    · have := hw.tagsnd _ hmem
      rw [horders] at this
      exact (List.nodup_cons.mp this).2
    · exact hw.tagsnd _ hpL

theorem levelsWF_keep {ls : List (Tick × LevelFIFO)} (hw : LevelsWF ls)
    {px : Tick} {h : OrderNode} {rest : List OrderNode}
    (horders : (findLevel ls px).orders = h :: rest)
    {q' : Quantity} (hq : 0 < q') :
    LevelsWF (setLevel ls px
      ⟨{ h with qty := q' } :: rest, (findLevel ls px).total_qty - (h.qty - q')⟩) := by
  have hmem : (px, findLevel ls px) ∈ ls :=
    mem_of_findLevel_orders_ne (by rw [horders]; exact List.cons_ne_nil _ _)
  have htot : (findLevel ls px).total_qty = h.qty + sumQty rest := by
    rw [findLevel_total hw, horders]
    rfl
  constructor
  · exact sorted_setLevel hw.sorted
  · intro pL hpL
    rcases mem_setLevel hpL with rfl | hpL
    · exact hw.band (px, findLevel ls px) hmem
    · exact hw.band _ hpL
  · intro pL hpL
    rcases mem_setLevel hpL with rfl | hpL
    · show (findLevel ls px).total_qty - (h.qty - q') = sumQty ({ h with qty := q' } :: rest)
      rw [htot]
      show h.qty + sumQty rest - (h.qty - q') = q' + sumQty rest
      ring
    · exact hw.total _ hpL
  · intro pL hpL n hn
    rcases mem_setLevel hpL with rfl | hpL
    · rcases List.mem_cons.mp hn with rfl | hn'
      · exact hq
      · exact hw.pos _ hmem n (by rw [horders]; exact List.mem_cons_of_mem _ hn')
    · exact hw.pos _ hpL n hn
  · intro pL hpL
    rcases mem_setLevel hpL with rfl | hpL
    · have := hw.tagsnd _ hmem
      rw [horders] at this
      simpa using this
    · exact hw.tagsnd _ hpL

theorem levelsWF_enqueue {ls : List (Tick × LevelFIFO)} (hw : LevelsWF ls)
    {px : Tick} (hlo : MINP ≤ px) (hhi : px ≤ MAXP)
    {n : OrderNode} (hq : 0 < n.qty) {T : Nat} (htb : TagsBelow ls T) (htag : n.tag = T) :
    LevelsWF (setLevel ls px ((findLevel ls px).enqueue n)) := by
  constructor
  · exact sorted_setLevel hw.sorted
  · intro pL hpL
    rcases mem_setLevel hpL with rfl | hpL
    · exact ⟨hlo, hhi⟩
    · exact hw.band _ hpL
  · intro pL hpL
    rcases mem_setLevel hpL with rfl | hpL
    · show (findLevel ls px).total_qty + n.qty = sumQty ((findLevel ls px).orders ++ [n])
      rw [sumQty_append, findLevel_total hw]
      show _ = _ + (n.qty + 0)
      ring
    · exact hw.total _ hpL
  · intro pL hpL m hm
    rcases mem_setLevel hpL with rfl | hpL
    · rcases List.mem_append.mp hm with hm' | hm'
      · exact findLevel_pos hw px m hm'
      · rcases List.mem_singleton.mp hm' with rfl
        exact hq
    · exact hw.pos _ hpL m hm
  · intro pL hpL
    rcases mem_setLevel hpL with rfl | hpL
    · show (((findLevel ls px).orders ++ [n]).map OrderNode.tag).Nodup
      rw [List.map_append]
      refine List.nodup_append.mpr ⟨findLevel_tagsnd hw px, List.nodup_singleton _, ?_⟩
      intro a ha hb
      rcases List.mem_map.mp ha with ⟨m, hm, rfl⟩
      rcases List.mem_singleton.mp hb with h'
      have := findLevel_tags_lt htb px m hm
      rw [h', htag] at this
      exact lt_irrefl _ this
    · exact hw.tagsnd _ hpL

theorem levelsWF_update {ls : List (Tick × LevelFIFO)} (hw : LevelsWF ls)
    {px : Tick} {t : Nat}
    (hex : ∃ n ∈ (findLevel ls px).orders, n.tag = t)
    {q' : Quantity} (hq : 0 < q') (ts fl : Nat) :
    LevelsWF (setLevel ls px
      ⟨updateByTag (findLevel ls px).orders t q' ts fl,
       (findLevel ls px).total_qty + (q' - qtyOfTag (findLevel ls px).orders t)⟩) := by
  have hne : (findLevel ls px).orders ≠ [] := by
    rcases hex with ⟨n, hn, _⟩
    intro he
    rw [he] at hn
    exact List.not_mem_nil n hn
  have hmem : (px, findLevel ls px) ∈ ls := mem_of_findLevel_orders_ne hne
  constructor
  · exact sorted_setLevel hw.sorted
  · intro pL hpL
    rcases mem_setLevel hpL with rfl | hpL
    · exact hw.band (px, findLevel ls px) hmem
    · exact hw.band _ hpL
  · intro pL hpL
    rcases mem_setLevel hpL with rfl | hpL
    · show (findLevel ls px).total_qty + (q' - qtyOfTag (findLevel ls px).orders t) =
        sumQty (updateByTag (findLevel ls px).orders t q' ts fl)
      rw [sumQty_updateByTag hex, findLevel_total hw]
    · exact hw.total _ hpL
  · intro pL hpL m hm
    rcases mem_setLevel hpL with rfl | hpL
    · rcases mem_updateByTag hm with ⟨x, _, rfl⟩ | hm'
      · exact hq
      · exact findLevel_pos hw px m hm'
    · exact hw.pos _ hpL m hm
  · intro pL hpL
    rcases mem_setLevel hpL with rfl | hpL
    · show ((updateByTag (findLevel ls px).orders t q' ts fl).map OrderNode.tag).Nodup
      have h1 := congrArg (List.map Prod.fst) (updateByTag_tagid (findLevel ls px).orders t q' ts fl)
      simp only [List.map_map] at h1
      have h2 : ((updateByTag (findLevel ls px).orders t q' ts fl).map OrderNode.tag) =
          ((findLevel ls px).orders.map OrderNode.tag) := h1
      rw [h2]
      exact findLevel_tagsnd hw px
    · exact hw.tagsnd _ hpL

theorem not_mem_idErase_self {l : List (Nat × IdEntry)} (hnd : (l.map Prod.fst).Nodup)
    (k : Nat) (e : IdEntry) : (k, e) ∉ idErase l k := by
  induction l with
  | nil => simp [idErase]
  | cons kf rest ih =>
    obtain ⟨k0, f⟩ := kf
    simp only [List.map_cons, List.nodup_cons] at hnd
    simp only [idErase]
    by_cases hk : k0 = k
    · rw [if_pos hk]
      intro hmem
      exact hnd.1 (hk ▸ List.mem_map_of_mem Prod.fst hmem)
    · rw [if_neg hk]
      intro hmem
      rcases List.mem_cons.mp hmem with heq | hmem'
      · cases heq
        exact hk rfl
      · exact ih hnd.2 hmem'

/-! ### Cached-best preservation under level updates -/

theorem askBest_erase_emptied {ls : List (Tick × LevelFIFO)} {best : Tick}
    (hs : SortedKeys ls)
    (hlb : ∀ p : Tick, (findLevel ls p).orders ≠ [] → best ≤ p)
    (L2 : LevelFIFO) (hL2 : L2.orders = []) :
    (∀ p : Tick, (findLevel (setLevel ls best L2) p).orders ≠ [] →
        next_ask_after (setLevel ls best L2) best ≤ p) ∧
    (next_ask_after (setLevel ls best L2) best = MAXP ∨
      (findLevel (setLevel ls best L2)
        (next_ask_after (setLevel ls best L2) best)).orders ≠ []) := by
  have hs' : SortedKeys (setLevel ls best L2) := sorted_setLevel hs
  constructor
  · intro p hp
    by_cases hpb : p = best
    · subst hpb
      rw [findLevel_setLevel_self] at hp
      exact absurd hL2 hp
    · have hp' : (findLevel ls p).orders ≠ [] := by
        rwa [findLevel_setLevel_ne _ _ _ hpb] at hp
      exact next_ask_after_le hs' hp (lt_of_le_of_ne (hlb p hp') (Ne.symm hpb))
  · rcases next_ask_after_attained hs' best with h | ⟨_, h2⟩
    · exact Or.inl h
    · exact Or.inr h2

theorem bidBest_erase_emptied {ls : List (Tick × LevelFIFO)} {best : Tick}
    (hs : SortedKeys ls)
    (hub : ∀ p : Tick, (findLevel ls p).orders ≠ [] → p ≤ best)
    (L2 : LevelFIFO) (hL2 : L2.orders = [])
    (hband : ∀ pL ∈ setLevel ls best L2, MINP ≤ pL.1) :
    (∀ p : Tick, (findLevel (setLevel ls best L2) p).orders ≠ [] →
        p ≤ next_bid_before (setLevel ls best L2) best) ∧
    (next_bid_before (setLevel ls best L2) best = MINP ∨
      (findLevel (setLevel ls best L2)
        (next_bid_before (setLevel ls best L2) best)).orders ≠ []) := by
  have hs' : SortedKeys (setLevel ls best L2) := sorted_setLevel hs
  constructor
  · intro p hp
    by_cases hpb : p = best
    · subst hpb
      rw [findLevel_setLevel_self] at hp
      exact absurd hL2 hp
    · have hp' : (findLevel ls p).orders ≠ [] := by
        rwa [findLevel_setLevel_ne _ _ _ hpb] at hp
      exact next_bid_before_ge hs' hband hp (lt_of_le_of_ne (hub p hp') hpb)
  · rcases next_bid_before_attained hs' best with h | ⟨_, h2⟩
    · exact Or.inl h
    · exact Or.inr h2

theorem askBest_erase_kept {ls : List (Tick × LevelFIFO)} {best : Tick}
    (hlb : ∀ p : Tick, (findLevel ls p).orders ≠ [] → best ≤ p)
    (L2 : LevelFIFO) (hL2 : L2.orders ≠ []) :
    (∀ p : Tick, (findLevel (setLevel ls best L2) p).orders ≠ [] → best ≤ p) ∧
    (findLevel (setLevel ls best L2) best).orders ≠ [] := by
  constructor
  · intro p hp
    by_cases hpb : p = best
    · exact le_of_eq hpb.symm
    · exact hlb p (by rwa [findLevel_setLevel_ne _ _ _ hpb] at hp)
  · rw [findLevel_setLevel_self]
    exact hL2

theorem bidBest_erase_kept {ls : List (Tick × LevelFIFO)} {best : Tick}
    (hub : ∀ p : Tick, (findLevel ls p).orders ≠ [] → p ≤ best)
    (L2 : LevelFIFO) (hL2 : L2.orders ≠ []) :
    (∀ p : Tick, (findLevel (setLevel ls best L2) p).orders ≠ [] → p ≤ best) ∧
    (findLevel (setLevel ls best L2) best).orders ≠ [] := by
  constructor
  · intro p hp
    by_cases hpb : p = best
    · exact le_of_eq hpb
    · exact hub p (by rwa [findLevel_setLevel_ne _ _ _ hpb] at hp)
  · rw [findLevel_setLevel_self]
    exact hL2

theorem askBest_enqueue_improved {ls : List (Tick × LevelFIFO)} {best px : Tick}
    (hlb : ∀ p : Tick, (findLevel ls p).orders ≠ [] → best ≤ p)
    (himp : px < best) {L' : LevelFIFO} (hL' : L'.orders ≠ []) :
    (∀ p : Tick, (findLevel (setLevel ls px L') p).orders ≠ [] → px ≤ p) ∧
    (findLevel (setLevel ls px L') px).orders ≠ [] := by
  constructor
  · intro p hp
    by_cases hpb : p = px
    · exact le_of_eq hpb.symm
    · have hp' : (findLevel ls p).orders ≠ [] := by
        rwa [findLevel_setLevel_ne _ _ _ hpb] at hp
      exact le_of_lt (lt_of_lt_of_le himp (hlb p hp'))
  · rw [findLevel_setLevel_self]
    exact hL'

theorem bidBest_enqueue_improved {ls : List (Tick × LevelFIFO)} {best px : Tick}
    (hub : ∀ p : Tick, (findLevel ls p).orders ≠ [] → p ≤ best)
    (himp : best < px) {L' : LevelFIFO} (hL' : L'.orders ≠ []) :
    (∀ p : Tick, (findLevel (setLevel ls px L') p).orders ≠ [] → p ≤ px) ∧
    (findLevel (setLevel ls px L') px).orders ≠ [] := by
  constructor
  · intro p hp
    by_cases hpb : p = px
    · exact le_of_eq hpb
    · have hp' : (findLevel ls p).orders ≠ [] := by
        rwa [findLevel_setLevel_ne _ _ _ hpb] at hp
      exact le_of_lt (lt_of_le_of_lt (hub p hp') himp)
  · rw [findLevel_setLevel_self]
    exact hL'

theorem askBest_enqueue_kept {ls : List (Tick × LevelFIFO)} {best px : Tick}
    (hlb : ∀ p : Tick, (findLevel ls p).orders ≠ [] → best ≤ p)
    (hatt : best = MAXP ∨ (findLevel ls best).orders ≠ [])
    (hkept : ¬ px < best) {L' : LevelFIFO} (hL' : L'.orders ≠ []) :
    (∀ p : Tick, (findLevel (setLevel ls px L') p).orders ≠ [] → best ≤ p) ∧
    (best = MAXP ∨ (findLevel (setLevel ls px L') best).orders ≠ []) := by
  constructor
  · intro p hp
    by_cases hpb : p = px
    · subst hpb
      exact not_lt.mp hkept
    · exact hlb p (by rwa [findLevel_setLevel_ne _ _ _ hpb] at hp)
  · rcases hatt with h | h
    · exact Or.inl h
    · by_cases hbp : best = px
      · subst hbp
        rw [findLevel_setLevel_self]
        exact Or.inr hL'
      · rw [findLevel_setLevel_ne _ _ _ hbp]
        exact Or.inr h

theorem bidBest_enqueue_kept {ls : List (Tick × LevelFIFO)} {best px : Tick}
    (hub : ∀ p : Tick, (findLevel ls p).orders ≠ [] → p ≤ best)
    (hatt : best = MINP ∨ (findLevel ls best).orders ≠ [])
    (hkept : ¬ best < px) {L' : LevelFIFO} (hL' : L'.orders ≠ []) :
    (∀ p : Tick, (findLevel (setLevel ls px L') p).orders ≠ [] → p ≤ best) ∧
    (best = MINP ∨ (findLevel (setLevel ls px L') best).orders ≠ []) := by
  constructor
  · intro p hp
    by_cases hpb : p = px
    · subst hpb
      exact not_lt.mp hkept
    · exact hub p (by rwa [findLevel_setLevel_ne _ _ _ hpb] at hp)
  · rcases hatt with h | h
    · exact Or.inl h
    · by_cases hbp : best = px
      · subst hbp
        rw [findLevel_setLevel_self]
        exact Or.inr hL'
      · rw [findLevel_setLevel_ne _ _ _ hbp]
        exact Or.inr h

/-! ### Index invariants under the book transformations -/

theorem tagsBelow_setLevel {ls : List (Tick × LevelFIFO)} {px : Tick} {L : LevelFIFO}
    {T : Nat} (htb : TagsBelow ls T) (hL : ∀ n ∈ L.orders, n.tag < T) :
    TagsBelow (setLevel ls px L) T := by
  intro pL hpL n hn
  rcases mem_setLevel hpL with rfl | hpL
  · exact hL n hn
  · exact htb _ hpL n hn

theorem tagsBelow_mono {ls : List (Tick × LevelFIFO)} {T T' : Nat}
    (htb : TagsBelow ls T) (h : T ≤ T') : TagsBelow ls T' :=
  fun pL hpL n hn => lt_of_lt_of_le (htb pL hpL n hn) h

theorem entryInv_setSideBest {b : Book} (hE : EntryInv b) (s : Side) (px : Tick) :
    EntryInv (b.setSideBest s px) := by
  intro ke hke
  rw [id_index_setSideBest] at hke
  obtain ⟨n, hn, hp⟩ := hE ke hke
  refine ⟨n, ?_, hp⟩
  rw [sideLevels_setSideBest]
  exact hn

theorem freshInv_setSideBest {b : Book} (hF : FreshInv b) (s : Side) (px : Tick) :
    FreshInv (b.setSideBest s px) := by
  intro s' px' n hn
  rw [sideLevels_setSideBest] at hn
  rw [id_index_setSideBest]
  exact hF s' px' n hn

theorem entryInv_erase {b : Book} (hE : EntryInv b)
    (hnd : (b.id_index.map Prod.fst).Nodup)
    {s : Side} {best : Tick} {h : OrderNode} {rest : List OrderNode}
    (horders : (findLevel (b.sideLevels s) best).orders = h :: rest)
    {L2 : LevelFIFO} (hL2 : L2.orders = rest) :
    EntryInv ((b.setSideLevel s best L2).eraseId h.id) := by
  intro ke hke
  have hke0 : ke ∈ idErase b.id_index h.id := by
    simpa [Book.eraseId, id_index_setSideLevel] using hke
  have hke' : ke ∈ b.id_index := mem_idErase hke0
  have hkne : ke.1 ≠ h.id := by
    intro he
    refine not_mem_idErase_self hnd h.id ke.2 ?_
    have hke1 : (ke.1, ke.2) ∈ idErase b.id_index h.id := by simpa using hke0
    rw [he] at hke1
    exact hke1
  obtain ⟨n, hn, hnt, hni⟩ := hE ke hke'
  refine ⟨n, ?_, hnt, hni⟩
  rw [sideLevels_eraseId]
  by_cases hside : ke.2.side = s
  · rw [hside, sideLevels_setSideLevel_same]
    rw [hside] at hn
    by_cases hpx : ke.2.px = best
    · rw [hpx, findLevel_setLevel_self, hL2]
      rw [hpx, horders] at hn
      rcases List.mem_cons.mp hn with rfl | hn'
      · exact absurd hni.symm hkne
      · exact hn'
    · rw [findLevel_setLevel_ne _ _ _ hpx]
      exact hn
  · rw [sideLevels_setSideLevel_other hside]
    exact hn

theorem freshInv_erase {b : Book} (hF : FreshInv b)
    {s : Side} {best : Tick} {h : OrderNode} {rest : List OrderNode}
    (horders : (findLevel (b.sideLevels s) best).orders = h :: rest)
    (htagnd : ((findLevel (b.sideLevels s) best).orders.map OrderNode.tag).Nodup)
    {L2 : LevelFIFO} (hL2 : L2.orders = rest) :
    FreshInv ((b.setSideLevel s best L2).eraseId h.id) := by
  have hhm : h ∈ (findLevel (b.sideLevels s) best).orders := by
    rw [horders]
    exact List.mem_cons_self _ _
  have hfh := hF s best h hhm
  have hnotag : h.tag ∉ rest.map OrderNode.tag := by
    rw [horders] at htagnd
    exact (List.nodup_cons.mp htagnd).1
  intro s' px' n hn
  have hidx : ((b.setSideLevel s best L2).eraseId h.id).id_index =
      idErase b.id_index h.id := by
    simp [Book.eraseId, id_index_setSideLevel]
  rw [hidx]
  rw [sideLevels_eraseId] at hn
  have hold : n ∈ (findLevel (b.sideLevels s') px').orders ∧
      (s' = s → px' = best → n ∈ rest) := by
    by_cases hside : s' = s
    · subst hside
      rw [sideLevels_setSideLevel_same] at hn
      by_cases hpx : px' = best
      · subst hpx
        rw [findLevel_setLevel_self, hL2] at hn
        exact ⟨by rw [horders]; exact List.mem_cons_of_mem _ hn, fun _ _ => hn⟩
      · rw [findLevel_setLevel_ne _ _ _ hpx] at hn
        exact ⟨hn, fun _ hc => absurd hc hpx⟩
    · rw [sideLevels_setSideLevel_other hside] at hn
      exact ⟨hn, fun hc => absurd hc hside⟩
  have hfn := hF s' px' n hold.1
  have hne : n.id ≠ h.id := by
    intro he
    rw [he, hfh] at hfn
    have hinj := Option.some.inj hfn
    have hs1 : s = s' := congrArg IdEntry.side hinj
    have hp1 : best = px' := congrArg IdEntry.px hinj
    have ht1 : h.tag = n.tag := congrArg IdEntry.tag hinj
    have hrest : n ∈ rest := hold.2 hs1.symm hp1.symm
    exact hnotag (ht1 ▸ List.mem_map_of_mem OrderNode.tag hrest)
  rw [idFind_idErase_ne hne]
  exact hfn

theorem entryInv_keep {b : Book} (hE : EntryInv b)
    {s : Side} {best : Tick} {h : OrderNode} {rest : List OrderNode}
    (horders : (findLevel (b.sideLevels s) best).orders = h :: rest)
    {q' : Quantity} {T : Quantity} :
    EntryInv (b.setSideLevel s best ⟨{ h with qty := q' } :: rest, T⟩) := by
  intro ke hke
  rw [id_index_setSideLevel] at hke
  obtain ⟨n, hn, hnt, hni⟩ := hE ke hke
  by_cases hside : ke.2.side = s
  · rw [hside] at hn ⊢
    rw [sideLevels_setSideLevel_same]
    by_cases hpx : ke.2.px = best
    · rw [hpx] at hn ⊢
      rw [findLevel_setLevel_self]
      rw [horders] at hn
      rcases List.mem_cons.mp hn with rfl | hn'
      · exact ⟨{ n with qty := q' }, List.mem_cons_self _ _, hnt, hni⟩
      · exact ⟨n, List.mem_cons_of_mem _ hn', hnt, hni⟩
    · rw [findLevel_setLevel_ne _ _ _ hpx]
      exact ⟨n, hn, hnt, hni⟩
  · rw [sideLevels_setSideLevel_other hside]
    exact ⟨n, hn, hnt, hni⟩

theorem freshInv_keep {b : Book} (hF : FreshInv b)
    {s : Side} {best : Tick} {h : OrderNode} {rest : List OrderNode}
    (horders : (findLevel (b.sideLevels s) best).orders = h :: rest)
    (q' T : Quantity) :
    FreshInv (b.setSideLevel s best ⟨{ h with qty := q' } :: rest, T⟩) := by
  intro s' px' n hn
  rw [id_index_setSideLevel]
  by_cases hside : s' = s
  · subst hside
    rw [sideLevels_setSideLevel_same] at hn
    by_cases hpx : px' = best
    · subst hpx
      rw [findLevel_setLevel_self] at hn
      rcases List.mem_cons.mp hn with rfl | hn'
      · exact hF s' px' h (by rw [horders]; exact List.mem_cons_self _ _)
      · exact hF s' px' n (by rw [horders]; exact List.mem_cons_of_mem _ hn')
    · rw [findLevel_setLevel_ne _ _ _ hpx] at hn
      exact hF s' px' n hn
  · rw [sideLevels_setSideLevel_other hside] at hn
    exact hF s' px' n hn

/-! ### Composite step lemmas for the matching loop -/

theorem Side.opp_opp (s : Side) : s.opp.opp = s := by
  cases s <;> rfl

/-- The `SideBook` of the given side. -/
def Book.sideBookOf (b : Book) : Side → SideBook
  | .Bid => b.bids
  | .Ask => b.asks

theorem sideBookOf_setSideLevel_opp (b : Book) (s : Side) (px : Tick) (L : LevelFIFO) :
    (b.setSideLevel s px L).sideBookOf s.opp = b.sideBookOf s.opp := by
  cases s <;> rfl

theorem sideBookOf_setSideBest_opp (b : Book) (s : Side) (px : Tick) :
    (b.setSideBest s px).sideBookOf s.opp = b.sideBookOf s.opp := by
  cases s <;> rfl

theorem sideBookOf_eraseId (b : Book) (id : Nat) (s' : Side) :
    (b.eraseId id).sideBookOf s' = b.sideBookOf s' := by
  cases s' <;> rfl

theorem sideLevels_sideBookOf (b : Book) (s : Side) :
    b.sideLevels s = (b.sideBookOf s).levels := by
  cases s <;> rfl

theorem step_erase_all {b : Book} (hw : WF b) {s : Side} {h : OrderNode}
    {rest : List OrderNode}
    (horders : (findLevel (b.sideLevels s) (b.sideBest s)).orders = h :: rest)
    {L1 : LevelFIFO} (hL1o : L1.orders = rest)
    (hL1t : L1.total_qty =
      (findLevel (b.sideLevels s) (b.sideBest s)).total_qty - h.qty) :
    WF (eraseHeadAdvance b s (b.sideBest s) L1 h.id) ∧
    (FreshInv b → FreshInv (eraseHeadAdvance b s (b.sideBest s) L1 h.id)) ∧
    nodeCount ((eraseHeadAdvance b s (b.sideBest s) L1 h.id).sideLevels s) + 1 =
      nodeCount (b.sideLevels s) ∧
    (eraseHeadAdvance b s (b.sideBest s) L1 h.id).nextTag = b.nextTag ∧
    (eraseHeadAdvance b s (b.sideBest s) L1 h.id).sideBookOf s.opp = b.sideBookOf s.opp ∧
    (∀ id : Nat, idFind b.id_index id = none →
      idFind (eraseHeadAdvance b s (b.sideBest s) L1 h.id).id_index id = none) := by
  have hL1 : L1 = ⟨rest, (findLevel (b.sideLevels s) (b.sideBest s)).total_qty - h.qty⟩ := by
    obtain ⟨o, t⟩ := L1
    simp only at hL1o hL1t
    rw [hL1o, hL1t]
  subst hL1
  have hmem : (b.sideBest s, findLevel (b.sideLevels s) (b.sideBest s)) ∈ b.sideLevels s :=
    mem_of_findLevel_orders_ne (by rw [horders]; exact List.cons_ne_nil _ _)
  have hlvl : LevelsWF (setLevel (b.sideLevels s) (b.sideBest s)
      ⟨rest, (findLevel (b.sideLevels s) (b.sideBest s)).total_qty - h.qty⟩) :=
    levelsWF_erase (hw.lvl s) horders
  have htags : TagsBelow (setLevel (b.sideLevels s) (b.sideBest s)
      ⟨rest, (findLevel (b.sideLevels s) (b.sideBest s)).total_qty - h.qty⟩) b.nextTag := by
    refine tagsBelow_setLevel (hw.tags s) ?_
    intro n hn
    refine findLevel_tags_lt (hw.tags s) (b.sideBest s) n ?_
    rw [horders]
    exact List.mem_cons_of_mem _ hn
  have hentry : EntryInv ((b.setSideLevel s (b.sideBest s)
      ⟨rest, (findLevel (b.sideLevels s) (b.sideBest s)).total_qty - h.qty⟩).eraseId h.id) :=
    entryInv_erase hw.entry hw.keys horders rfl
  have hfresh : FreshInv b → FreshInv ((b.setSideLevel s (b.sideBest s)
      ⟨rest, (findLevel (b.sideLevels s) (b.sideBest s)).total_qty - h.qty⟩).eraseId h.id) :=
    fun hF => freshInv_erase hF horders (findLevel_tagsnd (hw.lvl s) _) rfl
  have hcount : nodeCount (setLevel (b.sideLevels s) (b.sideBest s)
      ⟨rest, (findLevel (b.sideLevels s) (b.sideBest s)).total_qty - h.qty⟩) + 1 =
      nodeCount (b.sideLevels s) := by
    have := nodeCount_setLevel (hw.lvl s).sorted hmem
      ⟨rest, (findLevel (b.sideLevels s) (b.sideBest s)).total_qty - h.qty⟩
    rw [horders] at this
    simp only [List.length_cons] at this
    omega
  have hkeys : (((b.setSideLevel s (b.sideBest s)
      ⟨rest, (findLevel (b.sideLevels s) (b.sideBest s)).total_qty - h.qty⟩).eraseId
        h.id).id_index.map Prod.fst).Nodup := by
    rw [Book.eraseId, id_index_setSideLevel]
    exact nodup_keys_idErase hw.keys
  -- now assemble, by cases on the side and on whether the level emptied
  by_cases hrest : rest = []
  · -- the level emptied: the cached best advances
    cases s with
    | Bid =>
      simp only [eraseHeadAdvance, hrest, if_pos rfl]
      subst hrest
      obtain ⟨hub, hatt⟩ := bidBest_erase_emptied (hw.lvlB.sorted) hw.bestB.ub
        ⟨[], (findLevel (b.sideLevels Side.Bid) (b.sideBest Side.Bid)).total_qty - h.qty⟩
        rfl (fun pL hpL => (hlvl.band pL hpL).1)
      refine ⟨?_, ?_, ?_, rfl, rfl, ?_⟩
      · exact {
          lvlB := hlvl
          lvlA := hw.lvlA
          bestB := ⟨hub, hatt⟩
          bestA := hw.bestA
          tagsB := htags
          tagsA := hw.tagsA
          keys := hkeys
          entry := entryInv_setSideBest hentry _ _ }
      · intro hF
        exact freshInv_setSideBest (hfresh hF) _ _
      · exact hcount
      · intro id hid
        exact idFind_none_idErase hid
    | Ask =>
      simp only [eraseHeadAdvance, hrest, if_pos rfl]
      subst hrest
      obtain ⟨hlb, hatt⟩ := askBest_erase_emptied (hw.lvlA.sorted) hw.bestA.lb
        ⟨[], (findLevel (b.sideLevels Side.Ask) (b.sideBest Side.Ask)).total_qty - h.qty⟩
        rfl
      refine ⟨?_, ?_, ?_, rfl, rfl, ?_⟩
      · exact {
          lvlB := hw.lvlB
          lvlA := hlvl
          bestB := hw.bestB
          bestA := ⟨hlb, hatt⟩
          tagsB := hw.tagsB
          tagsA := htags
          keys := hkeys
          entry := entryInv_setSideBest hentry _ _ }
      · intro hF
        exact freshInv_setSideBest (hfresh hF) _ _
      · exact hcount
      · intro id hid
        exact idFind_none_idErase hid
  · -- the level kept orders: the cached best is unchanged
    cases s with
    | Bid =>
      simp only [eraseHeadAdvance, if_neg hrest]
      obtain ⟨hub, hatt⟩ := bidBest_erase_kept hw.bestB.ub
        ⟨rest, (findLevel (b.sideLevels Side.Bid) (b.sideBest Side.Bid)).total_qty - h.qty⟩
        hrest
      refine ⟨?_, hfresh, ?_, rfl, rfl, ?_⟩
      · exact {
          lvlB := hlvl
          lvlA := hw.lvlA
          bestB := ⟨hub, Or.inr hatt⟩
          bestA := hw.bestA
          tagsB := htags
          tagsA := hw.tagsA
          keys := hkeys
          entry := hentry }
      · exact hcount
      · intro id hid
        exact idFind_none_idErase hid
    | Ask =>
      simp only [eraseHeadAdvance, if_neg hrest]
      obtain ⟨hlb, hatt⟩ := askBest_erase_kept hw.bestA.lb
        ⟨rest, (findLevel (b.sideLevels Side.Ask) (b.sideBest Side.Ask)).total_qty - h.qty⟩
        hrest
      refine ⟨?_, hfresh, ?_, rfl, rfl, ?_⟩
      · exact {
          lvlB := hw.lvlB
          lvlA := hlvl
          bestB := hw.bestB
          bestA := ⟨hlb, Or.inr hatt⟩
          tagsB := hw.tagsB
          tagsA := htags
          keys := hkeys
          entry := hentry }
      · exact hcount
      · intro id hid
        exact idFind_none_idErase hid

theorem step_keep_all {b : Book} (hw : WF b) {s : Side} {h : OrderNode}
    {rest : List OrderNode}
    (horders : (findLevel (b.sideLevels s) (b.sideBest s)).orders = h :: rest)
    {q' : Quantity} (hq' : 0 < q')
    (L1 : LevelFIFO) (hL1o : L1.orders = { h with qty := q' } :: rest)
    (hL1t : L1.total_qty =
      (findLevel (b.sideLevels s) (b.sideBest s)).total_qty - (h.qty - q')) :
    WF (b.setSideLevel s (b.sideBest s) L1) ∧
    (FreshInv b → FreshInv (b.setSideLevel s (b.sideBest s) L1)) ∧
    nodeCount ((b.setSideLevel s (b.sideBest s) L1).sideLevels s) =
      nodeCount (b.sideLevels s) ∧
    (b.setSideLevel s (b.sideBest s) L1).nextTag = b.nextTag ∧
    (b.setSideLevel s (b.sideBest s) L1).sideBookOf s.opp = b.sideBookOf s.opp ∧
    (b.setSideLevel s (b.sideBest s) L1).id_index = b.id_index := by
  have hL1 : L1 = ⟨{ h with qty := q' } :: rest,
      (findLevel (b.sideLevels s) (b.sideBest s)).total_qty - (h.qty - q')⟩ := by
    obtain ⟨o, t⟩ := L1
    simp only at hL1o hL1t
    rw [hL1o, hL1t]
  subst hL1
  have hmem : (b.sideBest s, findLevel (b.sideLevels s) (b.sideBest s)) ∈ b.sideLevels s :=
    mem_of_findLevel_orders_ne (by rw [horders]; exact List.cons_ne_nil _ _)
  have hlvl : LevelsWF (setLevel (b.sideLevels s) (b.sideBest s)
      ⟨{ h with qty := q' } :: rest,
       (findLevel (b.sideLevels s) (b.sideBest s)).total_qty - (h.qty - q')⟩) :=
    levelsWF_keep (hw.lvl s) horders hq'
  have htags : TagsBelow (setLevel (b.sideLevels s) (b.sideBest s)
      ⟨{ h with qty := q' } :: rest,
       (findLevel (b.sideLevels s) (b.sideBest s)).total_qty - (h.qty - q')⟩) b.nextTag := by
    refine tagsBelow_setLevel (hw.tags s) ?_
    intro n hn
    rcases List.mem_cons.mp hn with rfl | hn'
    · exact findLevel_tags_lt (hw.tags s) (b.sideBest s) h
        (by rw [horders]; exact List.mem_cons_self _ _)
    · exact findLevel_tags_lt (hw.tags s) (b.sideBest s) n
        (by rw [horders]; exact List.mem_cons_of_mem _ hn')
  have hentry : EntryInv (b.setSideLevel s (b.sideBest s)
      ⟨{ h with qty := q' } :: rest,
       (findLevel (b.sideLevels s) (b.sideBest s)).total_qty - (h.qty - q')⟩) :=
    entryInv_keep hw.entry horders
  have hfresh := fun hF => freshInv_keep (b := b) hF horders q'
    ((findLevel (b.sideLevels s) (b.sideBest s)).total_qty - (h.qty - q'))
  have hcount : nodeCount (setLevel (b.sideLevels s) (b.sideBest s)
      ⟨{ h with qty := q' } :: rest,
       (findLevel (b.sideLevels s) (b.sideBest s)).total_qty - (h.qty - q')⟩) =
      nodeCount (b.sideLevels s) := by
    have := nodeCount_setLevel (hw.lvl s).sorted hmem
      ⟨{ h with qty := q' } :: rest,
       (findLevel (b.sideLevels s) (b.sideBest s)).total_qty - (h.qty - q')⟩
    rw [horders] at this
    simp only [List.length_cons] at this
    omega
  cases s with
  | Bid =>
    obtain ⟨hub, hatt⟩ := bidBest_erase_kept hw.bestB.ub
      ⟨{ h with qty := q' } :: rest,
        (findLevel (b.sideLevels Side.Bid) (b.sideBest Side.Bid)).total_qty - (h.qty - q')⟩
      (List.cons_ne_nil _ _)
    refine ⟨?_, hfresh, hcount, rfl, rfl, rfl⟩
    exact {
      lvlB := hlvl
      lvlA := hw.lvlA
      bestB := ⟨hub, Or.inr hatt⟩
      bestA := hw.bestA
      tagsB := htags
      tagsA := hw.tagsA
      keys := hw.keys
      entry := hentry }
  | Ask =>
    obtain ⟨hlb, hatt⟩ := askBest_erase_kept hw.bestA.lb
      ⟨{ h with qty := q' } :: rest,
        (findLevel (b.sideLevels Side.Ask) (b.sideBest Side.Ask)).total_qty - (h.qty - q')⟩
      (List.cons_ne_nil _ _)
    refine ⟨?_, hfresh, hcount, rfl, rfl, rfl⟩
    exact {
      lvlB := hw.lvlB
      lvlA := hlvl
      bestB := hw.bestB
      bestA := ⟨hlb, Or.inr hatt⟩
      tagsB := hw.tagsB
      tagsA := htags
      keys := hw.keys
      entry := hentry }

/-- Worst-possible price bound, as passed by `submit_market`. -/
def worstBound : Side → Tick
  | .Bid => MAXP
  | .Ask => MINP

theorem crossesB_worst (taker : Side) {p : Tick} (hlo : MINP ≤ p) (hhi : p ≤ MAXP) :
    crossesB taker p (worstBound taker) = true := by
  cases taker
  · simpa [crossesB, worstBound] using hhi
  · simpa [crossesB, worstBound] using hlo

theorem WF_best_facts {b : Book} {s : Side} (hw : WF b)
    (hs : b.sideBest s ≠ sentinel s) :
    (findLevel (b.sideLevels s) (b.sideBest s)).orders ≠ [] ∧
    MINP ≤ b.sideBest s ∧ b.sideBest s ≤ MAXP := by
  have hne : (findLevel (b.sideLevels s) (b.sideBest s)).orders ≠ [] := by
    cases s
    · rcases hw.bestB.att with h | h
      · exact absurd h hs
      · exact h
    · rcases hw.bestA.att with h | h
      · exact absurd h hs
      · exact h
  have hmem := mem_of_findLevel_orders_ne hne
  have hband : MINP ≤ b.sideBest s ∧ b.sideBest s ≤ MAXP := (hw.lvl s).band _ hmem
  exact ⟨hne, hband.1, hband.2⟩

/-! ### Step equations of the matching loop -/

theorem matchLoop_stop_want {fuel : Nat} {b : Book} {taker : Side}
    {user flags : Nat} {want : Quantity} {lim : Tick} (hwant : ¬ 0 < want) :
    matchLoop (fuel + 1) b taker user flags want lim = ⟨b, 0, []⟩ := by
  simp only [matchLoop, if_pos hwant]

theorem matchLoop_stop_sentinel {fuel : Nat} {b : Book} {taker : Side}
    {user flags : Nat} {want : Quantity} {lim : Tick} (hwant : 0 < want)
    (hsent : b.sideBest taker.opp = sentinel taker.opp) :
    matchLoop (fuel + 1) b taker user flags want lim = ⟨b, 0, []⟩ := by
  simp only [matchLoop, if_neg (not_not_intro hwant), if_pos hsent]

theorem matchLoop_stop_nocross {fuel : Nat} {b : Book} {taker : Side}
    {user flags : Nat} {want : Quantity} {lim : Tick} (hwant : 0 < want)
    (hsent : ¬ b.sideBest taker.opp = sentinel taker.opp)
    (hcross : ¬ crossesB taker (b.sideBest taker.opp) lim = true) :
    matchLoop (fuel + 1) b taker user flags want lim = ⟨b, 0, []⟩ := by
  simp only [matchLoop, if_neg (not_not_intro hwant), if_neg hsent, if_pos hcross]

theorem matchLoop_step_stale {fuel : Nat} {b : Book} {taker : Side}
    {user flags : Nat} {want : Quantity} {lim : Tick} (hwant : 0 < want)
    (hsent : ¬ b.sideBest taker.opp = sentinel taker.opp)
    (hcross : crossesB taker (b.sideBest taker.opp) lim = true)
    (horders : (findLevel (b.sideLevels taker.opp) (b.sideBest taker.opp)).orders = []) :
    matchLoop (fuel + 1) b taker user flags want lim =
      (if b.sideNext taker.opp (b.sideBest taker.opp) = sentinel taker.opp
       then ⟨b.setSideBest taker.opp (b.sideNext taker.opp (b.sideBest taker.opp)), 0, []⟩
       else matchLoop fuel
         (b.setSideBest taker.opp (b.sideNext taker.opp (b.sideBest taker.opp)))
         taker user flags want lim) := by
  simp only [matchLoop, if_neg (not_not_intro hwant), if_neg hsent,
    if_neg (not_not_intro hcross), horders]

theorem matchLoop_step_stp {fuel : Nat} {b : Book} {taker : Side}
    {user flags : Nat} {want : Quantity} {lim : Tick} (hwant : 0 < want)
    (hsent : ¬ b.sideBest taker.opp = sentinel taker.opp)
    (hcross : crossesB taker (b.sideBest taker.opp) lim = true)
    {h : OrderNode} {rest : List OrderNode}
    (horders : (findLevel (b.sideLevels taker.opp) (b.sideBest taker.opp)).orders = h :: rest)
    (hstp : flags &&& STP ≠ 0 ∧ h.user = user) :
    matchLoop (fuel + 1) b taker user flags want lim =
      matchLoop fuel
        (eraseHeadAdvance b taker.opp (b.sideBest taker.opp)
          ((findLevel (b.sideLevels taker.opp) (b.sideBest taker.opp)).eraseTag h.tag) h.id)
        taker user flags want lim := by
  simp only [matchLoop, if_neg (not_not_intro hwant), if_neg hsent,
    if_neg (not_not_intro hcross), horders, if_pos hstp]

theorem matchLoop_step_fill_erase {fuel : Nat} {b : Book} {taker : Side}
    {user flags : Nat} {want : Quantity} {lim : Tick} (hwant : 0 < want)
    (hsent : ¬ b.sideBest taker.opp = sentinel taker.opp)
    (hcross : crossesB taker (b.sideBest taker.opp) lim = true)
    {h : OrderNode} {rest : List OrderNode}
    (horders : (findLevel (b.sideLevels taker.opp) (b.sideBest taker.opp)).orders = h :: rest)
    (hstp : ¬ (flags &&& STP ≠ 0 ∧ h.user = user))
    (hzero : h.qty - min want h.qty = 0) :
    matchLoop (fuel + 1) b taker user flags want lim =
      ⟨(matchLoop fuel
          (eraseHeadAdvance b taker.opp (b.sideBest taker.opp)
            ((⟨{ h with qty := h.qty - min want h.qty } :: rest,
               (findLevel (b.sideLevels taker.opp) (b.sideBest taker.opp)).total_qty -
                 min want h.qty⟩ : LevelFIFO).eraseTag h.tag) h.id)
          taker user flags (want - min want h.qty) lim).book,
       min want h.qty +
         (matchLoop fuel
           (eraseHeadAdvance b taker.opp (b.sideBest taker.opp)
             ((⟨{ h with qty := h.qty - min want h.qty } :: rest,
                (findLevel (b.sideLevels taker.opp) (b.sideBest taker.opp)).total_qty -
                  min want h.qty⟩ : LevelFIFO).eraseTag h.tag) h.id)
           taker user flags (want - min want h.qty) lim).filled,
       ⟨b.sideBest taker.opp, min want h.qty, h.id⟩ ::
         (matchLoop fuel
           (eraseHeadAdvance b taker.opp (b.sideBest taker.opp)
             ((⟨{ h with qty := h.qty - min want h.qty } :: rest,
                (findLevel (b.sideLevels taker.opp) (b.sideBest taker.opp)).total_qty -
                  min want h.qty⟩ : LevelFIFO).eraseTag h.tag) h.id)
           taker user flags (want - min want h.qty) lim).trades⟩ := by
  simp only [matchLoop, if_neg (not_not_intro hwant), if_neg hsent,
    if_neg (not_not_intro hcross), horders, if_neg hstp, if_pos hzero, List.tail_cons]

theorem matchLoop_step_fill_keep {fuel : Nat} {b : Book} {taker : Side}
    {user flags : Nat} {want : Quantity} {lim : Tick} (hwant : 0 < want)
    (hsent : ¬ b.sideBest taker.opp = sentinel taker.opp)
    (hcross : crossesB taker (b.sideBest taker.opp) lim = true)
    {h : OrderNode} {rest : List OrderNode}
    (horders : (findLevel (b.sideLevels taker.opp) (b.sideBest taker.opp)).orders = h :: rest)
    (hstp : ¬ (flags &&& STP ≠ 0 ∧ h.user = user))
    (hzero : ¬ h.qty - min want h.qty = 0) :
    matchLoop (fuel + 1) b taker user flags want lim =
      ⟨(matchLoop fuel
          (b.setSideLevel taker.opp (b.sideBest taker.opp)
            ⟨{ h with qty := h.qty - min want h.qty } :: rest,
             (findLevel (b.sideLevels taker.opp) (b.sideBest taker.opp)).total_qty -
               min want h.qty⟩)
          taker user flags (want - min want h.qty) lim).book,
       min want h.qty +
         (matchLoop fuel
           (b.setSideLevel taker.opp (b.sideBest taker.opp)
             ⟨{ h with qty := h.qty - min want h.qty } :: rest,
              (findLevel (b.sideLevels taker.opp) (b.sideBest taker.opp)).total_qty -
                min want h.qty⟩)
           taker user flags (want - min want h.qty) lim).filled,
       ⟨b.sideBest taker.opp, min want h.qty, h.id⟩ ::
         (matchLoop fuel
           (b.setSideLevel taker.opp (b.sideBest taker.opp)
             ⟨{ h with qty := h.qty - min want h.qty } :: rest,
              (findLevel (b.sideLevels taker.opp) (b.sideBest taker.opp)).total_qty -
                min want h.qty⟩)
           taker user flags (want - min want h.qty) lim).trades⟩ := by
  simp only [matchLoop, if_neg (not_not_intro hwant), if_neg hsent,
    if_neg (not_not_intro hcross), horders, if_neg hstp, if_neg hzero, List.tail_cons]

/-- The one induction through the matching loop: well-formedness and fresh-id
indexing are preserved, the fill is within bounds, every emitted trade price
satisfies the crossing predicate against the limit, the taker's own side, the
allocation counter and absent index keys are untouched, and, under the
worst-price bound with sufficient fuel, the loop stops only on a full fill or
with the opposite cached best at the empty sentinel. -/
theorem matchLoop_main (fuel : Nat) : ∀ (b : Book) (taker : Side) (user flags : Nat)
    (want : Quantity) (lim : Tick), WF b →
    WF (matchLoop fuel b taker user flags want lim).book ∧
    (FreshInv b → FreshInv (matchLoop fuel b taker user flags want lim).book) ∧
    0 ≤ (matchLoop fuel b taker user flags want lim).filled ∧
    (0 ≤ want → (matchLoop fuel b taker user flags want lim).filled ≤ want) ∧
    (∀ t ∈ (matchLoop fuel b taker user flags want lim).trades,
      crossesB taker t.px lim = true) ∧
    (matchLoop fuel b taker user flags want lim).book.sideBookOf taker =
      b.sideBookOf taker ∧
    (matchLoop fuel b taker user flags want lim).book.nextTag = b.nextTag ∧
    (∀ id : Nat, idFind b.id_index id = none →
      idFind (matchLoop fuel b taker user flags want lim).book.id_index id = none) ∧
    (nodeCount (b.sideLevels taker.opp) + 2 ≤ fuel → 0 ≤ want →
      lim = worstBound taker →
      (matchLoop fuel b taker user flags want lim).filled = want ∨
      (matchLoop fuel b taker user flags want lim).book.sideBest taker.opp =
        sentinel taker.opp) := by
  induction fuel with
  | zero =>
    intro b taker user flags want lim hw
    exact ⟨hw, fun hF => hF, le_refl 0, fun h0 => h0,
      fun t ht => absurd ht (List.not_mem_nil t), rfl, rfl, fun id hid => hid,
      fun hf => absurd hf (by omega)⟩
  | succ fuel ih =>
    intro b taker user flags want lim hw
    by_cases hwant : 0 < want
    swap
    · rw [matchLoop_stop_want hwant]
      dsimp only
      exact ⟨hw, fun hF => hF, le_refl 0, fun h0 => h0,
        fun t ht => absurd ht (List.not_mem_nil t), rfl, rfl, fun id hid => hid,
        fun _ h0 _ => Or.inl (le_antisymm (not_lt.mp hwant) h0).symm⟩
    · by_cases hsent : b.sideBest taker.opp = sentinel taker.opp
      · rw [matchLoop_stop_sentinel hwant hsent]
        dsimp only
        exact ⟨hw, fun hF => hF, le_refl 0, fun _ => le_of_lt hwant,
          fun t ht => absurd ht (List.not_mem_nil t), rfl, rfl, fun id hid => hid,
          fun _ _ _ => Or.inr hsent⟩
      · obtain ⟨hne, hblo, hbhi⟩ := WF_best_facts hw hsent
        by_cases hcross : crossesB taker (b.sideBest taker.opp) lim = true
        swap
        · rw [matchLoop_stop_nocross hwant hsent hcross]
          dsimp only
          refine ⟨hw, fun hF => hF, le_refl 0, fun _ => le_of_lt hwant,
            fun t ht => absurd ht (List.not_mem_nil t), rfl, rfl, fun id hid => hid,
            fun _ _ hlim => absurd ?_ hcross⟩
          rw [hlim]
          exact crossesB_worst taker hblo hbhi
        · rcases horders : (findLevel (b.sideLevels taker.opp) (b.sideBest taker.opp)).orders
            with _ | ⟨h, rest⟩
          · exact absurd horders hne
          · have hhq : 0 < h.qty := findLevel_pos (hw.lvl taker.opp) (b.sideBest taker.opp) h
              (by rw [horders]; exact List.mem_cons_self _ _)
            by_cases hstp : flags &&& STP ≠ 0 ∧ h.user = user
            · -- self-trade prevention arm
              rw [matchLoop_step_stp hwant hsent hcross horders hstp]
              have hL1o : ((findLevel (b.sideLevels taker.opp)
                  (b.sideBest taker.opp)).eraseTag h.tag).orders = rest := by
                simp [LevelFIFO.eraseTag, horders, removeByTag]
              have hL1t : ((findLevel (b.sideLevels taker.opp)
                  (b.sideBest taker.opp)).eraseTag h.tag).total_qty =
                  (findLevel (b.sideLevels taker.opp) (b.sideBest taker.opp)).total_qty -
                    h.qty := by
                simp [LevelFIFO.eraseTag, horders, qtyOfTag]
              obtain ⟨hw2, hF2, hcnt2, htag2, hframe2, hnone2⟩ :=
                step_erase_all hw horders hL1o hL1t
              obtain ⟨ihw, ihF, ihlo, ihhi, ihtr, ihfr, ihtag, ihnone, ihex⟩ :=
                ih _ taker user flags want lim hw2
              rw [Side.opp_opp] at hframe2
              refine ⟨ihw, fun hF => ihF (hF2 hF), ihlo, ihhi, ihtr, ?_, ?_, ?_, ?_⟩
              · rw [ihfr, hframe2]
              · rw [ihtag, htag2]
              · intro id hid
                exact ihnone id (hnone2 id hid)
              · intro hfuel h0 hlim
                refine ihex ?_ h0 hlim
                omega
            · -- trade arm
              have htr0 : 0 < min want h.qty := lt_min hwant hhq
              have htrw : min want h.qty ≤ want := min_le_left _ _
              have htrq : min want h.qty ≤ h.qty := min_le_right _ _
              by_cases hzero : h.qty - min want h.qty = 0
              · -- head fully consumed
                rw [matchLoop_step_fill_erase hwant hsent hcross horders hstp hzero]
                dsimp only
                have hL1o : ((⟨{ h with qty := h.qty - min want h.qty } :: rest,
                    (findLevel (b.sideLevels taker.opp) (b.sideBest taker.opp)).total_qty -
                      min want h.qty⟩ : LevelFIFO).eraseTag h.tag).orders = rest := by
                  simp [LevelFIFO.eraseTag, removeByTag]
                have hL1t : ((⟨{ h with qty := h.qty - min want h.qty } :: rest,
                    (findLevel (b.sideLevels taker.opp) (b.sideBest taker.opp)).total_qty -
                      min want h.qty⟩ : LevelFIFO).eraseTag h.tag).total_qty =
                    (findLevel (b.sideLevels taker.opp) (b.sideBest taker.opp)).total_qty -
                      h.qty := by
                  simp [LevelFIFO.eraseTag, qtyOfTag]
                  try ring
                obtain ⟨hw2, hF2, hcnt2, htag2, hframe2, hnone2⟩ :=
                  step_erase_all hw horders hL1o hL1t
                obtain ⟨ihw, ihF, ihlo, ihhi, ihtr, ihfr, ihtag, ihnone, ihex⟩ :=
                  ih _ taker user flags (want - min want h.qty) lim hw2
                rw [Side.opp_opp] at hframe2
                refine ⟨ihw, fun hF => ihF (hF2 hF), add_nonneg (le_of_lt htr0) ihlo,
                  ?_, ?_, ?_, ?_, ?_, ?_⟩
                · intro h0
                  have hrec := ihhi (sub_nonneg.mpr htrw)
                  linarith
                · intro t ht
                  rcases List.mem_cons.mp ht with rfl | ht'
                  · exact hcross
                  · exact ihtr t ht'
                · rw [ihfr, hframe2]
                · rw [ihtag, htag2]
                · intro id hid
                  exact ihnone id (hnone2 id hid)
                · intro hfuel h0 hlim
                  rcases ihex (by omega) (sub_nonneg.mpr htrw) hlim with hfull | hsen
                  · refine Or.inl ?_
                    rw [hfull]
                    ring
                  · exact Or.inr hsen
              · -- head partially consumed; the loop then stops on want = 0
                rw [matchLoop_step_fill_keep hwant hsent hcross horders hstp hzero]
                dsimp only
                have hq' : 0 < h.qty - min want h.qty :=
                  lt_of_le_of_ne (sub_nonneg.mpr htrq) (Ne.symm hzero)
                obtain ⟨hw2, hF2, hcnt2, htag2, hframe2, hidx2⟩ :=
                  step_keep_all hw horders hq' ⟨{ h with qty := h.qty - min want h.qty } :: rest,
                    (findLevel (b.sideLevels taker.opp) (b.sideBest taker.opp)).total_qty -
                      min want h.qty⟩ rfl (by dsimp only; try ring)
                obtain ⟨ihw, ihF, ihlo, ihhi, ihtr, ihfr, ihtag, ihnone, ihex⟩ :=
                  ih _ taker user flags (want - min want h.qty) lim hw2
                rw [Side.opp_opp] at hframe2
                have htrw' : min want h.qty = want := by
                  rcases min_choice want h.qty with hmc | hmc
                  · exact hmc
                  · exact absurd (by rw [hmc]; exact sub_self _) hzero
                refine ⟨ihw, fun hF => ihF (hF2 hF), add_nonneg (le_of_lt htr0) ihlo,
                  ?_, ?_, ?_, ?_, ?_, ?_⟩
                · intro h0
                  have hrec := ihhi (sub_nonneg.mpr htrw)
                  linarith
                · intro t ht
                  rcases List.mem_cons.mp ht with rfl | ht'
                  · exact hcross
                  · exact ihtr t ht'
                · rw [ihfr, hframe2]
                · rw [ihtag, htag2]
                · intro id hid
                  refine ihnone id ?_
                  rw [hidx2]
                  exact hid
                · intro hfuel h0 hlim
                  have hzero' : want - min want h.qty = 0 := by
                    rw [htrw']
                    exact sub_self _
                  have hle := ihhi (le_of_eq hzero'.symm)
                  have hle0 := le_trans hle (le_of_eq hzero')
                  have hf0 := le_antisymm hle0 ihlo
                  refine Or.inl ?_
                  rw [hf0, add_zero, htrw']

/-! ### Mid-list erasure lemmas for the cancel path -/

theorem removeByTag_sublist (l : List OrderNode) (t : Nat) :
    (removeByTag l t).Sublist l := by
  induction l with
  | nil => simp [removeByTag]
  | cons n ns ih =>
    by_cases hn : n.tag = t
    · simp only [removeByTag, if_pos hn]
      exact (List.sublist_cons_self _ _)
    · simp only [removeByTag, if_neg hn]
      exact ih.cons₂ n

theorem mem_removeByTag_of_tag_ne {l : List OrderNode} {t : Nat} {n : OrderNode}
    (hn : n ∈ l) (ht : n.tag ≠ t) : n ∈ removeByTag l t := by
  induction l with
  | nil => simp at hn
  | cons m ms ih =>
    by_cases hm : m.tag = t
    · simp only [removeByTag, if_pos hm]
      rcases List.mem_cons.mp hn with rfl | hn'
      · exact absurd hm ht
      · exact hn'
    · simp only [removeByTag, if_neg hm]
      rcases List.mem_cons.mp hn with rfl | hn'
      · exact List.mem_cons_self _ _
      · exact List.mem_cons_of_mem _ (ih hn')

theorem eq_of_tag_of_nodup {l : List OrderNode}
    (hnd : (l.map OrderNode.tag).Nodup) {m n : OrderNode}
    (hm : m ∈ l) (hn : n ∈ l) (ht : m.tag = n.tag) : m = n := by
  induction l with
  | nil => simp at hm
  | cons x xs ih =>
    simp only [List.map_cons, List.nodup_cons] at hnd
    rcases List.mem_cons.mp hm with rfl | hm'
    · rcases List.mem_cons.mp hn with rfl | hn'
      · rfl
      · exact absurd (ht ▸ List.mem_map_of_mem OrderNode.tag hn') hnd.1
    · rcases List.mem_cons.mp hn with rfl | hn'
      · exact absurd (ht ▸ List.mem_map_of_mem OrderNode.tag hm') hnd.1
      · exact ih hnd.2 hm' hn'

theorem updateByTag_ne_nil {l : List OrderNode} {t : Nat} {q : Quantity} {ts fl : Nat}
    (h : l ≠ []) : updateByTag l t q ts fl ≠ [] := by
  cases l with
  | nil => exact absurd rfl h
  | cons n ns =>
    by_cases hn : n.tag = t <;> simp [updateByTag, hn]

theorem bidBest_erase_noadv {ls : List (Tick × LevelFIFO)} {best px : Tick}
    (hub : ∀ p : Tick, (findLevel ls p).orders ≠ [] → p ≤ best)
    (hatt : best = MINP ∨ (findLevel ls best).orders ≠ [])
    {L1 : LevelFIFO} (hold : L1.orders ≠ [] → (findLevel ls px).orders ≠ [])
    (hcond : ¬(L1.orders = [] ∧ best = px)) :
    (∀ p : Tick, (findLevel (setLevel ls px L1) p).orders ≠ [] → p ≤ best) ∧
    (best = MINP ∨ (findLevel (setLevel ls px L1) best).orders ≠ []) := by
  constructor
  · intro p hp
    by_cases hpb : p = px
    · subst hpb
      rw [findLevel_setLevel_self] at hp
      exact hub p (hold hp)
    · exact hub p (by rwa [findLevel_setLevel_ne _ _ _ hpb] at hp)
  · rcases hatt with h | h
    · exact Or.inl h
    · by_cases hbp : best = px
      · subst hbp
        rw [findLevel_setLevel_self]
        refine Or.inr fun hL1 => ?_
        exact hcond ⟨hL1, rfl⟩
      · rw [findLevel_setLevel_ne _ _ _ hbp]
        exact Or.inr h

theorem askBest_erase_noadv {ls : List (Tick × LevelFIFO)} {best px : Tick}
    (hlb : ∀ p : Tick, (findLevel ls p).orders ≠ [] → best ≤ p)
    (hatt : best = MAXP ∨ (findLevel ls best).orders ≠ [])
    {L1 : LevelFIFO} (hold : L1.orders ≠ [] → (findLevel ls px).orders ≠ [])
    (hcond : ¬(L1.orders = [] ∧ best = px)) :
    (∀ p : Tick, (findLevel (setLevel ls px L1) p).orders ≠ [] → best ≤ p) ∧
    (best = MAXP ∨ (findLevel (setLevel ls px L1) best).orders ≠ []) := by
  constructor
  · intro p hp
    by_cases hpb : p = px
    · subst hpb
      rw [findLevel_setLevel_self] at hp
      exact hlb p (hold hp)
    · exact hlb p (by rwa [findLevel_setLevel_ne _ _ _ hpb] at hp)
  · rcases hatt with h | h
    · exact Or.inl h
    · by_cases hbp : best = px
      · subst hbp
        rw [findLevel_setLevel_self]
        refine Or.inr fun hL1 => ?_
        exact hcond ⟨hL1, rfl⟩
      · rw [findLevel_setLevel_ne _ _ _ hbp]
        exact Or.inr h

theorem levelsWF_eraseTag {ls : List (Tick × LevelFIFO)} (hw : LevelsWF ls)
    {px : Tick} (hne : (findLevel ls px).orders ≠ []) (t : Nat) :
    LevelsWF (setLevel ls px ((findLevel ls px).eraseTag t)) := by
  have hmem : (px, findLevel ls px) ∈ ls := mem_of_findLevel_orders_ne hne
  constructor
  · exact sorted_setLevel hw.sorted
  · intro pL hpL
    rcases mem_setLevel hpL with rfl | hpL
    · exact hw.band (px, findLevel ls px) hmem
    · exact hw.band _ hpL
  · intro pL hpL
    rcases mem_setLevel hpL with rfl | hpL
    · show (findLevel ls px).total_qty - qtyOfTag (findLevel ls px).orders t =
        sumQty (removeByTag (findLevel ls px).orders t)
      rw [sumQty_removeByTag, findLevel_total hw]
    · exact hw.total _ hpL
  · intro pL hpL n hn
    rcases mem_setLevel hpL with rfl | hpL
    · exact findLevel_pos hw px n (mem_removeByTag hn)
    · exact hw.pos _ hpL n hn
  · intro pL hpL
    rcases mem_setLevel hpL with rfl | hpL
    · exact (findLevel_tagsnd hw px).sublist
        ((removeByTag_sublist _ _).map OrderNode.tag)
    · exact hw.tagsnd _ hpL

theorem not_mem_removeByTag_self {l : List OrderNode}
    (hnd : (l.map OrderNode.tag).Nodup) {n : OrderNode} (hn : n ∈ l) :
    n ∉ removeByTag l n.tag := by
  induction l with
  | nil => simp [removeByTag]
  | cons m ms ih =>
    simp only [List.map_cons, List.nodup_cons] at hnd
    by_cases hm : m.tag = n.tag
    · simp only [removeByTag, if_pos hm]
      intro hmem
      exact hnd.1 (hm ▸ List.mem_map_of_mem OrderNode.tag hmem)
    · simp only [removeByTag, if_neg hm]
      intro hmem
      rcases List.mem_cons.mp hmem with rfl | hmem'
      · exact hm rfl
      · rcases List.mem_cons.mp hn with rfl | hn'
        · exact hm rfl
        · exact ih hnd.2 hn' hmem'

theorem entryInv_erase_mid {b : Book} (hw : WF b) {id : Nat} {e : IdEntry}
    (hfind : idFind b.id_index id = some e)
    {n : OrderNode} (hn : n ∈ (findLevel (b.sideLevels e.side) e.px).orders)
    (hnt : n.tag = e.tag) (hni : n.id = id) :
    EntryInv ((b.setSideLevel e.side e.px
      ((findLevel (b.sideLevels e.side) e.px).eraseTag e.tag)).eraseId id) := by
  intro ke hke
  have hke0 : ke ∈ idErase b.id_index id := by
    simpa [Book.eraseId, id_index_setSideLevel] using hke
  have hke' : ke ∈ b.id_index := mem_idErase hke0
  have hkne : ke.1 ≠ id := by
    intro he
    refine not_mem_idErase_self hw.keys id ke.2 ?_
    have hke1 : (ke.1, ke.2) ∈ idErase b.id_index id := by simpa using hke0
    rw [he] at hke1
    exact hke1
  obtain ⟨m, hm, hmt, hmi⟩ := hw.entry ke hke'
  refine ⟨m, ?_, hmt, hmi⟩
  rw [sideLevels_eraseId]
  by_cases hside : ke.2.side = e.side
  · rw [hside, sideLevels_setSideLevel_same]
    rw [hside] at hm
    by_cases hpx : ke.2.px = e.px
    · rw [hpx, findLevel_setLevel_self]
      rw [hpx] at hm
      have hmtag : m.tag ≠ e.tag := by
        intro hteq
        have := eq_of_tag_of_nodup (findLevel_tagsnd (hw.lvl e.side) e.px) hm hn
          (hteq.trans hnt.symm)
        exact hkne (hmi ▸ this ▸ hni)
      exact mem_removeByTag_of_tag_ne hm hmtag
    · rw [findLevel_setLevel_ne _ _ _ hpx]
      exact hm
  · rw [sideLevels_setSideLevel_other hside]
    exact hm

theorem freshInv_erase_mid {b : Book} (hw : WF b) (hF : FreshInv b) {id : Nat}
    {e : IdEntry} (hfind : idFind b.id_index id = some e)
    {n : OrderNode} (hn : n ∈ (findLevel (b.sideLevels e.side) e.px).orders)
    (hnt : n.tag = e.tag) (hni : n.id = id) :
    FreshInv ((b.setSideLevel e.side e.px
      ((findLevel (b.sideLevels e.side) e.px).eraseTag e.tag)).eraseId id) := by
  intro s' px' m hm
  have hidx : ((b.setSideLevel e.side e.px
      ((findLevel (b.sideLevels e.side) e.px).eraseTag e.tag)).eraseId id).id_index =
      idErase b.id_index id := by
    simp [Book.eraseId, id_index_setSideLevel]
  rw [hidx]
  rw [sideLevels_eraseId] at hm
  have hold : m ∈ (findLevel (b.sideLevels s') px').orders ∧
      (s' = e.side → px' = e.px →
        m ∈ removeByTag (findLevel (b.sideLevels e.side) e.px).orders e.tag) := by
    by_cases hside : s' = e.side
    · subst hside
      rw [sideLevels_setSideLevel_same] at hm
      by_cases hpx : px' = e.px
      · subst hpx
        rw [findLevel_setLevel_self] at hm
        exact ⟨mem_removeByTag hm, fun _ _ => hm⟩
      · rw [findLevel_setLevel_ne _ _ _ hpx] at hm
        exact ⟨hm, fun _ hc => absurd hc hpx⟩
    · rw [sideLevels_setSideLevel_other hside] at hm
      exact ⟨hm, fun hc => absurd hc hside⟩
  have hfm := hF s' px' m hold.1
  have hne : m.id ≠ id := by
    intro he
    have hfn := hF (e.side) (e.px) n hn
    rw [he] at hfm
    rw [hni] at hfn
    have hinj := Option.some.inj (hfm.symm.trans hfn)
    have hs1 : s' = e.side := congrArg IdEntry.side hinj
    have hp1 : px' = e.px := congrArg IdEntry.px hinj
    have ht1 : m.tag = n.tag := congrArg IdEntry.tag hinj
    have hmem := hold.2 hs1 hp1
    have hmn : m = n := eq_of_tag_of_nodup (findLevel_tagsnd (hw.lvl e.side) e.px)
      (mem_removeByTag hmem) hn ht1
    rw [hmn, ← hnt] at hmem
    exact not_mem_removeByTag_self (findLevel_tagsnd (hw.lvl e.side) e.px) hn hmem
  rw [idFind_idErase_ne hne]
  exact hfm

/-- The cancel path preserves the invariants. -/
theorem eraseEntry_WF {b : Book} (hw : WF b) {id : Nat} {e : IdEntry}
    (hfind : idFind b.id_index id = some e) :
    WF (eraseEntry b id e) ∧ (FreshInv b → FreshInv (eraseEntry b id e)) := by
  obtain ⟨n, hn, hnt, hni⟩ := hw.entry (id, e) (idFind_mem hfind)
  have hne : (findLevel (b.sideLevels e.side) e.px).orders ≠ [] := by
    intro hc
    rw [hc] at hn
    exact List.not_mem_nil n hn
  have hlvl := levelsWF_eraseTag (hw.lvl e.side) hne e.tag
  have htags : TagsBelow (setLevel (b.sideLevels e.side) e.px
      ((findLevel (b.sideLevels e.side) e.px).eraseTag e.tag)) b.nextTag := by
    refine tagsBelow_setLevel (hw.tags e.side) ?_
    intro m hm
    exact findLevel_tags_lt (hw.tags e.side) e.px m (mem_removeByTag hm)
  have hkeys : (((b.setSideLevel e.side e.px
      ((findLevel (b.sideLevels e.side) e.px).eraseTag e.tag)).eraseId
        id).id_index.map Prod.fst).Nodup := by
    rw [Book.eraseId, id_index_setSideLevel]
    exact nodup_keys_idErase hw.keys
  have hentry := entryInv_erase_mid hw hfind hn hnt hni
  have hfresh := fun hF => freshInv_erase_mid hw hF hfind hn hnt hni
  have hold : ((findLevel (b.sideLevels e.side) e.px).eraseTag e.tag).orders ≠ [] →
      (findLevel (b.sideLevels e.side) e.px).orders ≠ [] := fun _ => hne
  simp only [eraseEntry]
  by_cases hcond : ((findLevel (b.sideLevels e.side) e.px).eraseTag e.tag).orders = [] ∧
      b.sideBest e.side = e.px
  · rw [if_pos hcond]
    cases hside : e.side with
    | Bid =>
      rw [hside] at hcond hlvl htags hkeys hentry hfresh
      have hb2 : b.bids.best_bid = e.px := hcond.2
      obtain ⟨hub, hatt⟩ := bidBest_erase_emptied (hw.lvlB.sorted)
        (hb2 ▸ hw.bestB.ub) _ hcond.1 (fun pL hpL => (hlvl.band pL hpL).1)
      constructor
      · exact {
          lvlB := hlvl
          lvlA := hw.lvlA
          bestB := ⟨hub, hatt⟩
          bestA := hw.bestA
          tagsB := htags
          tagsA := hw.tagsA
          keys := hkeys
          entry := entryInv_setSideBest hentry _ _ }
      · intro hF
        exact freshInv_setSideBest (hfresh hF) _ _
    | Ask =>
      rw [hside] at hcond hlvl htags hkeys hentry hfresh
      have hb2 : b.asks.best_ask = e.px := hcond.2
      obtain ⟨hlb, hatt⟩ := askBest_erase_emptied (hw.lvlA.sorted)
        (hb2 ▸ hw.bestA.lb) _ hcond.1
      constructor
      · exact {
          lvlB := hw.lvlB
          lvlA := hlvl
          bestB := hw.bestB
          bestA := ⟨hlb, hatt⟩
          tagsB := hw.tagsB
          tagsA := htags
          keys := hkeys
          entry := entryInv_setSideBest hentry _ _ }
      · intro hF
        exact freshInv_setSideBest (hfresh hF) _ _
  · rw [if_neg hcond]
    cases hside : e.side with
    | Bid =>
      rw [hside] at hcond hlvl htags hkeys hentry hfresh hold
      obtain ⟨hub, hatt⟩ := bidBest_erase_noadv hw.bestB.ub hw.bestB.att hold hcond
      constructor
      · exact {
          lvlB := hlvl
          lvlA := hw.lvlA
          bestB := ⟨hub, hatt⟩
          bestA := hw.bestA
          tagsB := htags
          tagsA := hw.tagsA
          keys := hkeys
          entry := hentry }
      · exact hfresh
    | Ask =>
      rw [hside] at hcond hlvl htags hkeys hentry hfresh hold
      obtain ⟨hlb, hatt⟩ := askBest_erase_noadv hw.bestA.lb hw.bestA.att hold hcond
      constructor
      · exact {
          lvlB := hw.lvlB
          lvlA := hlvl
          bestB := hw.bestB
          bestA := ⟨hlb, hatt⟩
          tagsB := hw.tagsB
          tagsA := htags
          keys := hkeys
          entry := hentry }
      · exact hfresh

theorem entryInv_update {b : Book} (hw : WF b) (s : Side) (px : Tick) (t : Nat)
    (q : Quantity) (ts fl : Nat) (T : Quantity) :
    EntryInv (b.setSideLevel s px
      ⟨updateByTag (findLevel (b.sideLevels s) px).orders t q ts fl, T⟩) := by
  intro ke hke
  rw [id_index_setSideLevel] at hke
  obtain ⟨m, hm, hmt, hmi⟩ := hw.entry ke hke
  by_cases hside : ke.2.side = s
  · rw [hside]
    rw [hside] at hm
    rw [sideLevels_setSideLevel_same]
    by_cases hpx : ke.2.px = px
    · rw [hpx, findLevel_setLevel_self]
      rw [hpx] at hm
      have hpair : (m.tag, m.id) ∈
          (updateByTag (findLevel (b.sideLevels s) px).orders t q ts fl).map
            (fun n => (n.tag, n.id)) := by
        rw [updateByTag_tagid]
        exact List.mem_map_of_mem _ hm
      rcases List.mem_map.mp hpair with ⟨m', hm', hpe⟩
      have ht' : m'.tag = m.tag := congrArg Prod.fst hpe
      have hi' : m'.id = m.id := congrArg Prod.snd hpe
      exact ⟨m', hm', ht'.trans hmt, hi'.trans hmi⟩
    · rw [findLevel_setLevel_ne _ _ _ hpx]
      exact ⟨m, hm, hmt, hmi⟩
  · rw [sideLevels_setSideLevel_other hside]
    exact ⟨m, hm, hmt, hmi⟩

theorem freshInv_update {b : Book} (hF : FreshInv b) (s : Side) (px : Tick) (t : Nat)
    (q : Quantity) (ts fl : Nat) (T : Quantity) :
    FreshInv (b.setSideLevel s px
      ⟨updateByTag (findLevel (b.sideLevels s) px).orders t q ts fl, T⟩) := by
  intro s' px' m hm
  rw [id_index_setSideLevel]
  by_cases hside : s' = s
  · subst hside
    rw [sideLevels_setSideLevel_same] at hm
    by_cases hpx : px' = px
    · subst hpx
      rw [findLevel_setLevel_self] at hm
      have hpair : (m.tag, m.id) ∈
          (findLevel (b.sideLevels s') px').orders.map (fun n => (n.tag, n.id)) := by
        rw [← updateByTag_tagid (findLevel (b.sideLevels s') px').orders t q ts fl]
        exact List.mem_map_of_mem _ hm
      rcases List.mem_map.mp hpair with ⟨m', hm', hpe⟩
      have ht' := congrArg Prod.fst hpe
      have hi' := congrArg Prod.snd hpe
      have := hF s' px' m' hm'
      simp only at ht' hi'
      rw [ht', hi'] at this
      exact this
    · rw [findLevel_setLevel_ne _ _ _ hpx] at hm
      exact hF s' px' m hm
  · rw [sideLevels_setSideLevel_other hside] at hm
    exact hF s' px' m hm

/-- The in-place branch of `modify` preserves the invariants. -/
theorem update_WF {b : Book} (hw : WF b) {id : Nat} {e : IdEntry}
    (hfind : idFind b.id_index id = some e)
    {q : Quantity} (hq : 0 < q) (ts fl : Nat) :
    WF (b.setSideLevel e.side e.px
      ⟨updateByTag (findLevel (b.sideLevels e.side) e.px).orders e.tag q ts fl,
       (findLevel (b.sideLevels e.side) e.px).total_qty +
         (q - qtyOfTag (findLevel (b.sideLevels e.side) e.px).orders e.tag)⟩) ∧
    (FreshInv b → FreshInv (b.setSideLevel e.side e.px
      ⟨updateByTag (findLevel (b.sideLevels e.side) e.px).orders e.tag q ts fl,
       (findLevel (b.sideLevels e.side) e.px).total_qty +
         (q - qtyOfTag (findLevel (b.sideLevels e.side) e.px).orders e.tag)⟩)) := by
  obtain ⟨n, hn, hnt, hni⟩ := hw.entry (id, e) (idFind_mem hfind)
  have hne : (findLevel (b.sideLevels e.side) e.px).orders ≠ [] := by
    intro hc
    rw [hc] at hn
    exact List.not_mem_nil n hn
  have hex : ∃ m ∈ (findLevel (b.sideLevels e.side) e.px).orders, m.tag = e.tag :=
    ⟨n, hn, hnt⟩
  have hlvl := levelsWF_update (hw.lvl e.side) hex hq ts fl
  have htags : TagsBelow (setLevel (b.sideLevels e.side) e.px
      ⟨updateByTag (findLevel (b.sideLevels e.side) e.px).orders e.tag q ts fl,
       (findLevel (b.sideLevels e.side) e.px).total_qty +
         (q - qtyOfTag (findLevel (b.sideLevels e.side) e.px).orders e.tag)⟩)
      b.nextTag := by
    refine tagsBelow_setLevel (hw.tags e.side) ?_
    intro m hm
    rcases mem_updateByTag hm with ⟨m', hm', rfl⟩ | hm'
    · exact findLevel_tags_lt (hw.tags e.side) e.px m' hm'
    · exact findLevel_tags_lt (hw.tags e.side) e.px m hm'
  have hentry := entryInv_update hw e.side e.px e.tag q ts fl
    ((findLevel (b.sideLevels e.side) e.px).total_qty +
      (q - qtyOfTag (findLevel (b.sideLevels e.side) e.px).orders e.tag))
  have hfresh := fun (hF : FreshInv b) => freshInv_update hF e.side e.px e.tag q ts fl
    ((findLevel (b.sideLevels e.side) e.px).total_qty +
      (q - qtyOfTag (findLevel (b.sideLevels e.side) e.px).orders e.tag))
  have hupdne : (updateByTag (findLevel (b.sideLevels e.side) e.px).orders e.tag
      q ts fl) ≠ [] := updateByTag_ne_nil hne
  have hold : (⟨updateByTag (findLevel (b.sideLevels e.side) e.px).orders e.tag q ts fl,
       (findLevel (b.sideLevels e.side) e.px).total_qty +
         (q - qtyOfTag (findLevel (b.sideLevels e.side) e.px).orders e.tag)⟩ :
       LevelFIFO).orders ≠ [] → (findLevel (b.sideLevels e.side) e.px).orders ≠ [] :=
    fun _ => hne
  have hcond : ¬((⟨updateByTag (findLevel (b.sideLevels e.side) e.px).orders e.tag q ts fl,
       (findLevel (b.sideLevels e.side) e.px).total_qty +
         (q - qtyOfTag (findLevel (b.sideLevels e.side) e.px).orders e.tag)⟩ :
       LevelFIFO).orders = [] ∧ b.sideBest e.side = e.px) :=
    fun hc => hupdne hc.1
  cases hside : e.side with
  | Bid =>
    rw [hside] at hlvl htags hentry hfresh hold hcond
    obtain ⟨hub, hatt⟩ := bidBest_erase_noadv hw.bestB.ub hw.bestB.att hold hcond
    constructor
    · exact {
        lvlB := hlvl
        lvlA := hw.lvlA
        bestB := ⟨hub, hatt⟩
        bestA := hw.bestA
        tagsB := htags
        tagsA := hw.tagsA
        keys := by rw [id_index_setSideLevel]; exact hw.keys
        entry := hentry }
    · exact hfresh
  | Ask =>
    rw [hside] at hlvl htags hentry hfresh hold hcond
    obtain ⟨hlb, hatt⟩ := askBest_erase_noadv hw.bestA.lb hw.bestA.att hold hcond
    constructor
    · exact {
        lvlB := hw.lvlB
        lvlA := hlvl
        bestB := hw.bestB
        bestA := ⟨hlb, hatt⟩
        tagsB := hw.tagsB
        tagsA := htags
        keys := by rw [id_index_setSideLevel]; exact hw.keys
        entry := hentry }
    · exact hfresh

/-- The resting step preserves the invariants; when the order id is absent
from the index, fresh-id indexing is preserved as well. -/
theorem rest_WF {b : Book} (hw : WF b) (o : NewOrder)
    (hlo : MINP ≤ o.price) (hhi : o.price ≤ MAXP)
    {leftover : Quantity} (hq : 0 < leftover) :
    WF (restOrder b o leftover) ∧
    (FreshInv b → idFind b.id_index o.id = none →
      FreshInv (restOrder b o leftover)) := by
  have hlvl := levelsWF_enqueue (hw.lvl o.side) hlo hhi
    (n := ⟨o.id, o.user, leftover, o.ts, o.flags, b.nextTag⟩) hq (hw.tags o.side) rfl
  have htags : TagsBelow (setLevel (b.sideLevels o.side) o.price
      ((findLevel (b.sideLevels o.side) o.price).enqueue
        ⟨o.id, o.user, leftover, o.ts, o.flags, b.nextTag⟩)) (b.nextTag + 1) := by
    refine tagsBelow_setLevel (tagsBelow_mono (hw.tags o.side) (Nat.le_succ _)) ?_
    intro m hm
    rcases List.mem_append.mp hm with hm' | hm'
    · exact lt_of_lt_of_le (findLevel_tags_lt (hw.tags o.side) o.price m hm') (Nat.le_succ _)
    · rcases List.mem_singleton.mp hm' with rfl
      exact Nat.lt_succ_self _
  have hLne : ((findLevel (b.sideLevels o.side) o.price).enqueue
      ⟨o.id, o.user, leftover, o.ts, o.flags, b.nextTag⟩).orders ≠ [] := by
    simp [LevelFIFO.enqueue]
  -- entry invariant of the final book
  have hentry : ∀ b3 : Book,
      b3.sideLevels o.side = setLevel (b.sideLevels o.side) o.price
        ((findLevel (b.sideLevels o.side) o.price).enqueue
          ⟨o.id, o.user, leftover, o.ts, o.flags, b.nextTag⟩) →
      (∀ s', s' ≠ o.side → b3.sideLevels s' = b.sideLevels s') →
      b3.id_index = b.id_index →
      EntryInv { b3 with id_index := idInsert b3.id_index o.id ⟨o.side, o.price, b.nextTag⟩,
                         nextTag := b.nextTag + 1 } := by
    intro b3 hsame hother hidx
    intro ke hke
    have hke' : ke ∈ idInsert b.id_index o.id ⟨o.side, o.price, b.nextTag⟩ := by
      rw [← hidx]
      exact hke
    have hlv : ∀ s', ({ b3 with
        id_index := idInsert b3.id_index o.id ⟨o.side, o.price, b.nextTag⟩,
        nextTag := b.nextTag + 1 } : Book).sideLevels s' = b3.sideLevels s' := by
      intro s'
      cases s' <;> rfl
    rcases mem_idInsert hke' with rfl | hold
    · refine ⟨⟨o.id, o.user, leftover, o.ts, o.flags, b.nextTag⟩, ?_, rfl, rfl⟩
      rw [hlv, hsame, findLevel_setLevel_self]
      exact List.mem_append_right _ (List.mem_singleton_self _)
    · obtain ⟨m, hm, hmt, hmi⟩ := hw.entry ke hold
      refine ⟨m, ?_, hmt, hmi⟩
      rw [hlv]
      by_cases hside : ke.2.side = o.side
      · rw [hside, hsame]
        rw [hside] at hm
        by_cases hpx : ke.2.px = o.price
        · rw [hpx, findLevel_setLevel_self]
          rw [hpx] at hm
          exact List.mem_append_left _ hm
        · rw [findLevel_setLevel_ne _ _ _ hpx]
          exact hm
      · rw [hother _ hside]
        exact hm
  have hfresh : ∀ b3 : Book,
      b3.sideLevels o.side = setLevel (b.sideLevels o.side) o.price
        ((findLevel (b.sideLevels o.side) o.price).enqueue
          ⟨o.id, o.user, leftover, o.ts, o.flags, b.nextTag⟩) →
      (∀ s', s' ≠ o.side → b3.sideLevels s' = b.sideLevels s') →
      b3.id_index = b.id_index →
      FreshInv b → idFind b.id_index o.id = none →
      FreshInv { b3 with id_index := idInsert b3.id_index o.id ⟨o.side, o.price, b.nextTag⟩,
                         nextTag := b.nextTag + 1 } := by
    intro b3 hsame hother hidx hF hnone
    intro s' px' m hm
    have hlv : ∀ s'', ({ b3 with
        id_index := idInsert b3.id_index o.id ⟨o.side, o.price, b.nextTag⟩,
        nextTag := b.nextTag + 1 } : Book).sideLevels s'' = b3.sideLevels s'' := by
      intro s''
      cases s'' <;> rfl
    have hidx2 : ({ b3 with
        id_index := idInsert b3.id_index o.id ⟨o.side, o.price, b.nextTag⟩,
        nextTag := b.nextTag + 1 } : Book).id_index =
        idInsert b.id_index o.id ⟨o.side, o.price, b.nextTag⟩ := by
      show idInsert b3.id_index o.id ⟨o.side, o.price, b.nextTag⟩ = _
      rw [hidx]
    rw [hlv] at hm
    rw [hidx2]
    have hmold : m ∈ (findLevel (b.sideLevels s') px').orders ∨
        (s' = o.side ∧ px' = o.price ∧
          m = ⟨o.id, o.user, leftover, o.ts, o.flags, b.nextTag⟩) := by
      by_cases hside : s' = o.side
      · subst hside
        rw [hsame] at hm
        by_cases hpx : px' = o.price
        · subst hpx
          rw [findLevel_setLevel_self] at hm
          rcases List.mem_append.mp hm with hm' | hm'
          · exact Or.inl hm'
          · exact Or.inr ⟨rfl, rfl, List.mem_singleton.mp hm'⟩
        · rw [findLevel_setLevel_ne _ _ _ hpx] at hm
          exact Or.inl hm
      · rw [hother _ hside] at hm
        exact Or.inl hm
    rcases hmold with hm' | ⟨hs1, hp1, hmeq⟩
    · have hfm := hF s' px' m hm'
      have hne : m.id ≠ o.id := by
        intro he
        rw [he, hnone] at hfm
        cases hfm
      rw [idFind_idInsert_ne hne]
      exact hfm
    · subst hs1
      subst hp1
      rw [hmeq]
      rw [idFind_idInsert_self]
  -- assemble by cases on the side and the best-improvement test
  simp only [restOrder]
  cases ho : o.side with
  | Bid =>
    rw [ho] at hlvl htags hLne hentry hfresh
    dsimp only
    by_cases himp : (b.setSideLevel Side.Bid o.price
        ((findLevel (b.sideLevels Side.Bid) o.price).enqueue
          ⟨o.id, o.user, leftover, o.ts, o.flags, b.nextTag⟩)).bids.best_bid < o.price
    · rw [if_pos himp]
      have himp' : b.bids.best_bid < o.price := himp
      obtain ⟨hub, hatt⟩ := bidBest_enqueue_improved hw.bestB.ub himp' hLne
      constructor
      · exact {
          lvlB := hlvl
          lvlA := hw.lvlA
          bestB := ⟨hub, Or.inr hatt⟩
          bestA := hw.bestA
          tagsB := htags
          tagsA := tagsBelow_mono hw.tagsA (Nat.le_succ _)
          keys := nodup_keys_idInsert hw.keys
          entry := hentry _ (by rw [sideLevels_setSideBest, sideLevels_setSideLevel_same])
            (fun s' hs' => by rw [sideLevels_setSideBest, sideLevels_setSideLevel_other hs'])
            rfl }
      · intro hF hnone
        exact hfresh _ (by rw [sideLevels_setSideBest, sideLevels_setSideLevel_same])
          (fun s' hs' => by rw [sideLevels_setSideBest, sideLevels_setSideLevel_other hs'])
          rfl hF hnone
    · rw [if_neg himp]
      have himp' : ¬ b.bids.best_bid < o.price := himp
      obtain ⟨hub, hatt⟩ := bidBest_enqueue_kept hw.bestB.ub hw.bestB.att himp' hLne
      constructor
      · exact {
          lvlB := hlvl
          lvlA := hw.lvlA
          bestB := ⟨hub, hatt⟩
          bestA := hw.bestA
          tagsB := htags
          tagsA := tagsBelow_mono hw.tagsA (Nat.le_succ _)
          keys := nodup_keys_idInsert hw.keys
          entry := hentry _ (by rw [sideLevels_setSideLevel_same])
            (fun s' hs' => by rw [sideLevels_setSideLevel_other hs']) rfl }
      · intro hF hnone
        exact hfresh _ (by rw [sideLevels_setSideLevel_same])
          (fun s' hs' => by rw [sideLevels_setSideLevel_other hs']) rfl hF hnone
  | Ask =>
    rw [ho] at hlvl htags hLne hentry hfresh
    dsimp only
    by_cases himp : o.price < (b.setSideLevel Side.Ask o.price
        ((findLevel (b.sideLevels Side.Ask) o.price).enqueue
          ⟨o.id, o.user, leftover, o.ts, o.flags, b.nextTag⟩)).asks.best_ask
    · rw [if_pos himp]
      have himp' : o.price < b.asks.best_ask := himp
      obtain ⟨hlb, hatt⟩ := askBest_enqueue_improved hw.bestA.lb himp' hLne
      constructor
      · exact {
          lvlB := hw.lvlB
          lvlA := hlvl
          bestB := hw.bestB
          bestA := ⟨hlb, Or.inr hatt⟩
          tagsB := tagsBelow_mono hw.tagsB (Nat.le_succ _)
          tagsA := htags
          keys := nodup_keys_idInsert hw.keys
          entry := hentry _ (by rw [sideLevels_setSideBest, sideLevels_setSideLevel_same])
            (fun s' hs' => by rw [sideLevels_setSideBest, sideLevels_setSideLevel_other hs'])
            rfl }
      · intro hF hnone
        exact hfresh _ (by rw [sideLevels_setSideBest, sideLevels_setSideLevel_same])
          (fun s' hs' => by rw [sideLevels_setSideBest, sideLevels_setSideLevel_other hs'])
          rfl hF hnone
    · rw [if_neg himp]
      have himp' : ¬ o.price < b.asks.best_ask := himp
      obtain ⟨hlb, hatt⟩ := askBest_enqueue_kept hw.bestA.lb hw.bestA.att himp' hLne
      constructor
      · exact {
          lvlB := hw.lvlB
          lvlA := hlvl
          bestB := hw.bestB
          bestA := ⟨hlb, hatt⟩
          tagsB := tagsBelow_mono hw.tagsB (Nat.le_succ _)
          tagsA := htags
          keys := nodup_keys_idInsert hw.keys
          entry := hentry _ (by rw [sideLevels_setSideLevel_same])
            (fun s' hs' => by rw [sideLevels_setSideLevel_other hs']) rfl }
      · intro hF hnone
        exact hfresh _ (by rw [sideLevels_setSideLevel_same])
          (fun s' hs' => by rw [sideLevels_setSideLevel_other hs']) rfl hF hnone

/-! ### Operation-level invariant preservation -/

theorem id_index_eraseEntry (b : Book) (id : Nat) (e : IdEntry) :
    (eraseEntry b id e).id_index = idErase b.id_index id := by
  simp only [eraseEntry]
  split
  · rw [id_index_setSideBest, Book.eraseId, id_index_setSideLevel]
  · rw [Book.eraseId, id_index_setSideLevel]

theorem WF_init : WF Book.init := by
  refine {
    lvlB := ?_
    lvlA := ?_
    bestB := ⟨fun p hp => absurd rfl hp, Or.inl rfl⟩
    bestA := ⟨fun p hp => absurd rfl hp, Or.inl rfl⟩
    tagsB := fun pL hpL => absurd hpL (List.not_mem_nil pL)
    tagsA := fun pL hpL => absurd hpL (List.not_mem_nil pL)
    keys := List.nodup_nil
    entry := fun ke hke => absurd hke (List.not_mem_nil ke) } <;>
  exact ⟨List.Pairwise.nil,
    fun pL hpL => absurd hpL (List.not_mem_nil pL),
    fun pL hpL => absurd hpL (List.not_mem_nil pL),
    fun pL hpL => absurd hpL (List.not_mem_nil pL),
    fun pL hpL => absurd hpL (List.not_mem_nil pL)⟩

theorem FreshInv_init : FreshInv Book.init := by
  intro s px n hn
  cases s <;> exact absurd hn (List.not_mem_nil n)

theorem submit_limit_WF {b : Book} (hw : WF b) {o : NewOrder}
    (hlo : MINP ≤ o.price) (hhi : o.price ≤ MAXP) :
    WF (submit_limit b o).book ∧
    (FreshInv b → idFind b.id_index o.id = none →
      FreshInv (submit_limit b o).book) := by
  simp only [submit_limit, match_against]
  by_cases hq : o.qty ≤ 0
  · rw [if_pos hq]
    exact ⟨hw, fun hF _ => hF⟩
  · rw [if_neg hq]
    obtain ⟨mw, mF, _, _, _, _, _, mnone, _⟩ :=
      matchLoop_main (matchFuel b o.side) b o.side o.user o.flags o.qty o.price hw
    by_cases hleft : o.qty -
        (matchLoop (matchFuel b o.side) b o.side o.user o.flags o.qty o.price).filled ≤ 0
    · rw [if_pos hleft]
      exact ⟨mw, fun hF _ => mF hF⟩
    · rw [if_neg hleft]
      have hlv : 0 < o.qty -
          (matchLoop (matchFuel b o.side) b o.side o.user o.flags o.qty o.price).filled :=
        not_le.mp hleft
      obtain ⟨rw1, rf1⟩ := rest_WF mw o hlo hhi hlv
      exact ⟨rw1, fun hF hnone => rf1 (mF hF) (mnone o.id hnone)⟩

theorem submit_market_WF {b : Book} (hw : WF b) (o : NewOrder) :
    WF (submit_market b o).book ∧
    (FreshInv b → FreshInv (submit_market b o).book) := by
  simp only [submit_market, match_against]
  by_cases hq : o.qty ≤ 0
  · rw [if_pos hq]
    exact ⟨hw, fun hF => hF⟩
  · rw [if_neg hq]
    obtain ⟨mw, mF, _⟩ := matchLoop_main (matchFuel b o.side) b o.side o.user o.flags o.qty
      (match o.side with | Side.Bid => MAXP | Side.Ask => MINP) hw
    exact ⟨mw, mF⟩

theorem cancel_WF {b : Book} (hw : WF b) (id : Nat) :
    WF (cancel b id).1 ∧ (FreshInv b → FreshInv (cancel b id).1) := by
  simp only [cancel]
  rcases hfind : idFind b.id_index id with _ | e
  · exact ⟨hw, fun hF => hF⟩
  · exact eraseEntry_WF hw hfind

theorem modify_WF {b : Book} (hw : WF b) {o : NewOrder}
    (hlo : MINP ≤ o.price) (hhi : o.price ≤ MAXP) :
    WF (modify b o).book ∧ (FreshInv b → FreshInv (modify b o).book) := by
  simp only [modify]
  rcases hfind : idFind b.id_index o.id with _ | e
  · exact ⟨hw, fun hF => hF⟩
  · dsimp only
    by_cases hpx : o.price = e.px
    · rw [if_pos hpx]
      by_cases hq0 : o.qty ≤ 0
      · rw [if_pos hq0]
        exact eraseEntry_WF hw hfind
      · rw [if_neg hq0]
        exact update_WF hw hfind (not_le.mp hq0) o.ts o.flags
    · rw [if_neg hpx]
      obtain ⟨ew, ef⟩ := eraseEntry_WF hw hfind
      have hnone : idFind (eraseEntry b o.id e).id_index o.id = none := by
        rw [id_index_eraseEntry]
        exact idFind_idErase_self hw.keys
      obtain ⟨sw, sf⟩ := submit_limit_WF ew (o := { o with side := e.side }) hlo hhi
      exact ⟨sw, fun hF => sf (ef hF) hnone⟩

/-- Every reachable state is well-formed. -/
theorem Reach_WF {b : Book} (hr : Reach b) : WF b := by
  induction hr with
  | init => exact WF_init
  | limit b o hr hlo hhi ih => exact (submit_limit_WF ih hlo hhi).1
  | market b o hr ih => exact (submit_market_WF ih o).1
  | cancelStep b id hr ih => exact (cancel_WF ih id).1
  | modifyStep b o hr hlo hhi ih => exact (modify_WF ih hlo hhi).1

/-- Along fresh-id histories the state is well-formed and every linked node
is indexed. -/
theorem ReachF_WF {b : Book} (hr : ReachF b) : WF b ∧ FreshInv b := by
  induction hr with
  | init => exact ⟨WF_init, FreshInv_init⟩
  | limit b o hr hlo hhi hnone ih =>
    obtain ⟨hw, hF⟩ := ih
    obtain ⟨hw', hF'⟩ := submit_limit_WF hw hlo hhi
    exact ⟨hw', hF' hF hnone⟩
  | market b o hr ih =>
    obtain ⟨hw, hF⟩ := ih
    obtain ⟨hw', hF'⟩ := submit_market_WF hw o
    exact ⟨hw', hF' hF⟩
  | cancelStep b id hr ih =>
    obtain ⟨hw, hF⟩ := ih
    obtain ⟨hw', hF'⟩ := cancel_WF hw id
    exact ⟨hw', hF' hF⟩
  | modifyStep b o hr hlo hhi ih =>
    obtain ⟨hw, hF⟩ := ih
    obtain ⟨hw', hF'⟩ := modify_WF hw hlo hhi
    exact ⟨hw', hF' hF⟩

/-! ### Helpers for the claim-level theorems -/

theorem sumQty_nonneg {l : List OrderNode} (h : ∀ n ∈ l, 0 < n.qty) :
    0 ≤ sumQty l := by
  induction l with
  | nil => exact le_refl 0
  | cons n ns ih =>
    have h1 := h n (List.mem_cons_self _ _)
    have h2 := ih fun m hm => h m (List.mem_cons_of_mem _ hm)
    show 0 ≤ n.qty + sumQty ns
    linarith

theorem sumQty_pos {l : List OrderNode} (h : ∀ n ∈ l, 0 < n.qty)
    (hne : l ≠ []) : 0 < sumQty l := by
  cases l with
  | nil => exact absurd rfl hne
  | cons n ns =>
    have h1 := h n (List.mem_cons_self _ _)
    have h2 := sumQty_nonneg fun m hm => h m (List.mem_cons_of_mem _ hm)
    show 0 < n.qty + sumQty ns
    linarith

theorem opp_ne_self (s : Side) : s.opp ≠ s := by
  cases s <;> decide

theorem eraseHeadAdvance_levels (b : Book) (s : Side) (best : Tick)
    (L1 : LevelFIFO) (hid : Nat) :
    (eraseHeadAdvance b s best L1 hid).sideLevels s
      = setLevel (b.sideLevels s) best L1 := by
  simp only [eraseHeadAdvance]
  split
  · rw [sideLevels_setSideBest, sideLevels_eraseId, sideLevels_setSideLevel_same]
  · rw [sideLevels_eraseId, sideLevels_setSideLevel_same]

theorem eraseHeadAdvance_id_index (b : Book) (s : Side) (best : Tick)
    (L1 : LevelFIFO) (hid : Nat) :
    (eraseHeadAdvance b s best L1 hid).id_index = idErase b.id_index hid := by
  simp only [eraseHeadAdvance]
  split
  · rw [id_index_setSideBest]
    show (idErase (b.setSideLevel s best L1).id_index hid) = _
    rw [id_index_setSideLevel]
  · show (idErase (b.setSideLevel s best L1).id_index hid) = _
    rw [id_index_setSideLevel]

/-- Effect of the resting step on the rested level and on the id index. -/
theorem restOrder_run (b : Book) (o : NewOrder) (lv : Quantity) :
    (findLevel ((restOrder b o lv).sideLevels o.side) o.price).orders
      = (findLevel (b.sideLevels o.side) o.price).orders
          ++ [⟨o.id, o.user, lv, o.ts, o.flags, b.nextTag⟩] ∧
    idFind (restOrder b o lv).id_index o.id = some ⟨o.side, o.price, b.nextTag⟩ := by
  have key : ∀ b3 : Book,
      b3.sideLevels o.side = setLevel (b.sideLevels o.side) o.price
        ((findLevel (b.sideLevels o.side) o.price).enqueue
          ⟨o.id, o.user, lv, o.ts, o.flags, b.nextTag⟩) →
      b3.id_index = b.id_index →
      (findLevel (({ b3 with
          id_index := idInsert b3.id_index o.id ⟨o.side, o.price, b.nextTag⟩,
          nextTag := b.nextTag + 1 } : Book).sideLevels o.side) o.price).orders
        = (findLevel (b.sideLevels o.side) o.price).orders
            ++ [⟨o.id, o.user, lv, o.ts, o.flags, b.nextTag⟩] ∧
      idFind ({ b3 with
          id_index := idInsert b3.id_index o.id ⟨o.side, o.price, b.nextTag⟩,
          nextTag := b.nextTag + 1 } : Book).id_index o.id
        = some ⟨o.side, o.price, b.nextTag⟩ := by
    intro b3 hsame hidx
    have hlv : ({ b3 with
        id_index := idInsert b3.id_index o.id ⟨o.side, o.price, b.nextTag⟩,
        nextTag := b.nextTag + 1 } : Book).sideLevels o.side = b3.sideLevels o.side := by
      cases o.side <;> rfl
    constructor
    · rw [hlv, hsame, findLevel_setLevel_self]
      rfl
    · show idFind (idInsert b3.id_index o.id ⟨o.side, o.price, b.nextTag⟩) o.id = _
      exact idFind_idInsert_self _ _ _
  simp only [restOrder]
  cases ho : o.side with
  | Bid =>
    rw [ho] at key
    dsimp only
    by_cases himp : (b.setSideLevel Side.Bid o.price
        ((findLevel (b.sideLevels Side.Bid) o.price).enqueue
          ⟨o.id, o.user, lv, o.ts, o.flags, b.nextTag⟩)).bids.best_bid < o.price
    · rw [if_pos himp]
      exact key _ (by rw [sideLevels_setSideBest, sideLevels_setSideLevel_same]) rfl
    · rw [if_neg himp]
      exact key _ (by rw [sideLevels_setSideLevel_same]) rfl
  | Ask =>
    rw [ho] at key
    dsimp only
    by_cases himp : o.price < (b.setSideLevel Side.Ask o.price
        ((findLevel (b.sideLevels Side.Ask) o.price).enqueue
          ⟨o.id, o.user, lv, o.ts, o.flags, b.nextTag⟩)).asks.best_ask
    · rw [if_pos himp]
      exact key _ (by rw [sideLevels_setSideBest, sideLevels_setSideLevel_same]) rfl
    · rw [if_neg himp]
      exact key _ (by rw [sideLevels_setSideLevel_same]) rfl

/-! ### The claims -/

/-- C1: best-price cache invariant.  In every state reachable from a fresh
book by the four public operations, a side whose ladder holds no linked
orders caches the empty sentinel (minimum Tick for bids, maximum for asks),
and a side with a non-empty price caches a price whose own FIFO is non-empty
and which bounds every non-empty price: the maximum such price for bids, the
minimum for asks. -/
theorem C1_best_price_cache {b : Book} (hr : Reach b) (s : Side) :
    ((∀ px : Tick, (findLevel (b.sideLevels s) px).orders = []) →
      b.sideBest s = sentinel s) ∧
    (∀ px : Tick, (findLevel (b.sideLevels s) px).orders ≠ [] →
      (findLevel (b.sideLevels s) (b.sideBest s)).orders ≠ [] ∧
      (s = Side.Bid → px ≤ b.sideBest s) ∧
      (s = Side.Ask → b.sideBest s ≤ px)) := by
  have hw := Reach_WF hr
  cases s with
  | Bid =>
    refine ⟨?_, ?_⟩
    · intro hempty
      rcases hw.bestB.att with h | h
      · exact h
      · exact absurd (hempty _) h
    · intro px hpx
      have hub : px ≤ b.bids.best_bid := hw.bestB.ub px hpx
      have hband : MINP ≤ px :=
        (hw.lvlB.band (px, findLevel (b.sideLevels Side.Bid) px)
          (mem_of_findLevel_orders_ne hpx)).1
      refine ⟨?_, fun _ => hub, fun hc => absurd hc (by decide)⟩
      rcases hw.bestB.att with h | h
      · have hpm : px = MINP := le_antisymm (h ▸ hub) hband
        have hb : b.sideBest Side.Bid = px := by
          show b.bids.best_bid = px
          rw [h, hpm]
        rw [hb]
        exact hpx
      · exact h
  | Ask =>
    refine ⟨?_, ?_⟩
    · intro hempty
      rcases hw.bestA.att with h | h
      · exact h
      · exact absurd (hempty _) h
    · intro px hpx
      have hlb : b.asks.best_ask ≤ px := hw.bestA.lb px hpx
      have hband : px ≤ MAXP :=
        (hw.lvlA.band (px, findLevel (b.sideLevels Side.Ask) px)
          (mem_of_findLevel_orders_ne hpx)).2
      refine ⟨?_, fun hc => absurd hc (by decide), fun _ => hlb⟩
      rcases hw.bestA.att with h | h
      · have hpm : px = MAXP := le_antisymm hband (h ▸ hlb)
        have hb : b.sideBest Side.Ask = px := by
          show b.asks.best_ask = px
          rw [h, hpm]
        rw [hb]
        exact hpx
      · exact h

theorem C1_best_price_cache_witness :
    (findLevel (bC7.sideLevels Side.Bid) (bC7.sideBest Side.Bid)).orders ≠ [] :=
  ((C1_best_price_cache
      (Reach.limit Book.init (mkO 0 0 1 1 Side.Bid 100 5 0) Reach.init
        (by decide) (by decide)) Side.Bid).2 100 (by decide)).1

/-- C2: strict FIFO within a price level.  One iteration of the matching loop
that reaches a non-empty best level (and does not STP-cancel its head) always
trades with the current head node, emitting a trade for the head's id of
quantity `min want h.qty` before anything else; and scenario S1 concretely:
with bids id 101 qty 5, id 102 qty 7, id 103 qty 3 rested at 105 in that
order, a market sell of 10 fills 10 with 0 remaining and leaves the 105 FIFO
as id 102 qty 2 then id 103 qty 3, with total quantity 5. -/
theorem C2_fifo_within_level :
    (∀ (fuel : Nat) (b : Book) (taker : Side) (user flags : Nat)
        (want : Quantity) (lim : Tick) (h : OrderNode) (rest : List OrderNode),
      0 < want →
      ¬ b.sideBest taker.opp = sentinel taker.opp →
      crossesB taker (b.sideBest taker.opp) lim = true →
      (findLevel (b.sideLevels taker.opp) (b.sideBest taker.opp)).orders = h :: rest →
      ¬ (flags &&& STP ≠ 0 ∧ h.user = user) →
      ∃ more : List Trade,
        (matchLoop (fuel + 1) b taker user flags want lim).trades
          = ⟨b.sideBest taker.opp, min want h.qty, h.id⟩ :: more) ∧
    (submit_market bS1 oS1).res = ⟨10, 0⟩ ∧
    ((findLevel ((submit_market bS1 oS1).book.sideLevels Side.Bid) 105).orders.map
      (fun n => (n.id, n.qty))) = [(102, 2), (103, 3)] ∧
    (findLevel ((submit_market bS1 oS1).book.sideLevels Side.Bid) 105).total_qty = 5 := by
  refine ⟨?_, by decide, by decide, by decide⟩
  intro fuel b taker user flags want lim h rest hwant hsent hcross horders hnstp
  by_cases hzero : h.qty - min want h.qty = 0
  · rw [matchLoop_step_fill_erase hwant hsent hcross horders hnstp hzero]
    exact ⟨_, rfl⟩
  · rw [matchLoop_step_fill_keep hwant hsent hcross horders hnstp hzero]
    exact ⟨_, rfl⟩

/-- C3: limit-price safety.  In every reachable state, every trade a buy
limit at price P executes has price at most P, and every trade a sell limit
at P executes has price at least P (each trade's price being the consumed
resting level's price). -/
theorem C3_limit_price_safety {b : Book} (hr : Reach b) (o : NewOrder) :
    ∀ t ∈ (submit_limit b o).trades,
      (o.side = Side.Bid → t.px ≤ o.price) ∧
      (o.side = Side.Ask → o.price ≤ t.px) := by
  have hw := Reach_WF hr
  obtain ⟨_, _, _, _, htr, _⟩ :=
    matchLoop_main (matchFuel b o.side) b o.side o.user o.flags o.qty o.price hw
  intro t ht
  simp only [submit_limit, match_against] at ht
  by_cases hq : o.qty ≤ 0
  · rw [if_pos hq] at ht
    exact absurd ht (List.not_mem_nil t)
  · rw [if_neg hq] at ht
    have ht' : t ∈ (matchLoop (matchFuel b o.side) b o.side o.user o.flags
        o.qty o.price).trades := by
      by_cases hleft : o.qty - (matchLoop (matchFuel b o.side) b o.side o.user
          o.flags o.qty o.price).filled ≤ 0
      · rw [if_pos hleft] at ht
        exact ht
      · rw [if_neg hleft] at ht
        exact ht
    have hx := htr t ht'
    constructor
    · intro hside
      rw [hside] at hx
      simp only [crossesB] at hx
      exact of_decide_eq_true hx
    · intro hside
      rw [hside] at hx
      simp only [crossesB] at hx
      exact of_decide_eq_true hx

theorem C3_limit_price_safety_witness :
    (⟨100, 3, 1⟩ : Trade) ∈ (submit_limit bC3 oC3).trades ∧
    ((oC3.side = Side.Bid → (⟨100, 3, 1⟩ : Trade).px ≤ oC3.price) ∧
     (oC3.side = Side.Ask → oC3.price ≤ (⟨100, 3, 1⟩ : Trade).px)) :=
  ⟨by decide,
   C3_limit_price_safety
     (Reach.limit Book.init (mkO 0 0 1 1 Side.Ask 100 5 0) Reach.init
       (by decide) (by decide)) oC3 ⟨100, 3, 1⟩ (by decide)⟩

/-- C4: submit_limit postcondition.  In every reachable state, a limit order
of positive quantity n returns filled + remaining = n with 0 ≤ filled ≤ n,
and when a positive remainder is left, a node carrying the order's id, user,
the remainder as quantity, the order's ts and flags is appended at the tail
of the same-side FIFO at the limit price (relative to the book the matching
phase produced), and the id index maps the order's id to that node's side,
price and identity. -/
theorem C4_submit_limit_post {b : Book} (hr : Reach b) (o : NewOrder)
    (hq : 0 < o.qty) :
    (submit_limit b o).res.filled + (submit_limit b o).res.remaining = o.qty ∧
    0 ≤ (submit_limit b o).res.filled ∧
    (submit_limit b o).res.filled ≤ o.qty ∧
    (0 < (submit_limit b o).res.remaining →
      ∃ tg : Nat,
        (findLevel ((submit_limit b o).book.sideLevels o.side) o.price).orders
          = (findLevel ((match_against b o.side o.user o.flags o.qty o.price).book.sideLevels
              o.side) o.price).orders
            ++ [⟨o.id, o.user, (submit_limit b o).res.remaining, o.ts, o.flags, tg⟩] ∧
        idFind (submit_limit b o).book.id_index o.id = some ⟨o.side, o.price, tg⟩) := by
  obtain ⟨_, _, hf0, hfle, _⟩ :=
    matchLoop_main (matchFuel b o.side) b o.side o.user o.flags o.qty o.price (Reach_WF hr)
  have hq' : ¬ o.qty ≤ 0 := not_le.mpr hq
  simp only [submit_limit, match_against]
  rw [if_neg hq']
  by_cases hleft : o.qty - (matchLoop (matchFuel b o.side) b o.side o.user o.flags
      o.qty o.price).filled ≤ 0
  · rw [if_pos hleft]
    have hfq : (matchLoop (matchFuel b o.side) b o.side o.user o.flags o.qty
        o.price).filled = o.qty :=
      le_antisymm (hfle (le_of_lt hq)) (sub_nonpos.mp hleft)
    refine ⟨?_, hf0, hfle (le_of_lt hq), ?_⟩
    · show (matchLoop (matchFuel b o.side) b o.side o.user o.flags o.qty o.price).filled
        + 0 = o.qty
      rw [hfq, add_zero]
    · intro hrem
      exact absurd hrem (lt_irrefl 0)
  · rw [if_neg hleft]
    refine ⟨?_, hf0, hfle (le_of_lt hq), ?_⟩
    · show (matchLoop (matchFuel b o.side) b o.side o.user o.flags o.qty o.price).filled
        + (o.qty - (matchLoop (matchFuel b o.side) b o.side o.user o.flags o.qty
            o.price).filled) = o.qty
      ring
    · intro _
      exact ⟨(matchLoop (matchFuel b o.side) b o.side o.user o.flags o.qty
          o.price).book.nextTag,
        (restOrder_run (matchLoop (matchFuel b o.side) b o.side o.user o.flags o.qty
          o.price).book o (o.qty - (matchLoop (matchFuel b o.side) b o.side o.user
            o.flags o.qty o.price).filled)).1,
        (restOrder_run (matchLoop (matchFuel b o.side) b o.side o.user o.flags o.qty
          o.price).book o (o.qty - (matchLoop (matchFuel b o.side) b o.side o.user
            o.flags o.qty o.price).filled)).2⟩

theorem C4_submit_limit_post_witness :
    (submit_limit Book.init oC4).res.filled + (submit_limit Book.init oC4).res.remaining
        = oC4.qty ∧
    0 ≤ (submit_limit Book.init oC4).res.filled ∧
    (submit_limit Book.init oC4).res.filled ≤ oC4.qty ∧
    (0 < (submit_limit Book.init oC4).res.remaining →
      ∃ tg : Nat,
        (findLevel ((submit_limit Book.init oC4).book.sideLevels oC4.side) oC4.price).orders
          = (findLevel ((match_against Book.init oC4.side oC4.user oC4.flags oC4.qty
              oC4.price).book.sideLevels oC4.side) oC4.price).orders
            ++ [⟨oC4.id, oC4.user, (submit_limit Book.init oC4).res.remaining, oC4.ts,
                oC4.flags, tg⟩] ∧
        idFind (submit_limit Book.init oC4).book.id_index oC4.id
          = some ⟨oC4.side, oC4.price, tg⟩) :=
  C4_submit_limit_post Reach.init oC4 (by decide)

/-- C5 (amended): submit_market postcondition.  In every reachable state, a
market order of positive quantity n fills within bounds with
filled + remaining = n, never touches its own side of the book (so the
remainder never rests), adds no id-index entry (an id absent before is
absent after), and stops only on a full fill or with the opposite side
empty.  The original claim's stronger clause — that the same-side ladder
and the id index hold no entry for the order's id afterwards — fails when
an unrelated resting order already carries that id (see the
counterexample). -/
theorem C5_submit_market_amended {b : Book} (hr : Reach b) (o : NewOrder)
    (hq : 0 < o.qty) :
    (submit_market b o).res.filled + (submit_market b o).res.remaining = o.qty ∧
    0 ≤ (submit_market b o).res.filled ∧
    (submit_market b o).res.filled ≤ o.qty ∧
    (submit_market b o).book.sideBookOf o.side = b.sideBookOf o.side ∧
    (idFind b.id_index o.id = none →
      idFind (submit_market b o).book.id_index o.id = none) ∧
    ((submit_market b o).res.filled = o.qty ∨
      (submit_market b o).book.emptySide o.side.opp = true) := by
  have hw := Reach_WF hr
  have hq' : ¬ o.qty ≤ 0 := not_le.mpr hq
  simp only [submit_market, match_against]
  rw [if_neg hq']
  cases ho : o.side with
  | Bid =>
    obtain ⟨_, _, hf0, hfle, _, hfr, _, hnone, hex⟩ :=
      matchLoop_main (matchFuel b Side.Bid) b Side.Bid o.user o.flags o.qty MAXP hw
    refine ⟨?_, hf0, hfle (le_of_lt hq), hfr, hnone o.id, ?_⟩
    · show (matchLoop (matchFuel b Side.Bid) b Side.Bid o.user o.flags o.qty MAXP).filled
        + (o.qty - (matchLoop (matchFuel b Side.Bid) b Side.Bid o.user o.flags o.qty
            MAXP).filled) = o.qty
      ring
    · rcases hex (by simp only [matchFuel]; omega) (le_of_lt hq) rfl with hfq | hsent
      · exact Or.inl hfq
      · exact Or.inr (decide_eq_true hsent)
  | Ask =>
    obtain ⟨_, _, hf0, hfle, _, hfr, _, hnone, hex⟩ :=
      matchLoop_main (matchFuel b Side.Ask) b Side.Ask o.user o.flags o.qty MINP hw
    refine ⟨?_, hf0, hfle (le_of_lt hq), hfr, hnone o.id, ?_⟩
    · show (matchLoop (matchFuel b Side.Ask) b Side.Ask o.user o.flags o.qty MINP).filled
        + (o.qty - (matchLoop (matchFuel b Side.Ask) b Side.Ask o.user o.flags o.qty
            MINP).filled) = o.qty
      ring
    · rcases hex (by simp only [matchFuel]; omega) (le_of_lt hq) rfl with hfq | hsent
      · exact Or.inl hfq
      · exact Or.inr (decide_eq_true hsent)

theorem C5_submit_market_amended_witness :
    (submit_market Book.init oS3).res = ⟨0, 10⟩ ∧
    (submit_market Book.init oS3).book.emptySide Side.Bid = true ∧
    (submit_market Book.init oS3).book.emptySide Side.Ask = true ∧
    ((submit_market Book.init oS3).res.filled + (submit_market Book.init oS3).res.remaining
        = oS3.qty ∧
      0 ≤ (submit_market Book.init oS3).res.filled ∧
      (submit_market Book.init oS3).res.filled ≤ oS3.qty ∧
      (submit_market Book.init oS3).book.sideBookOf oS3.side
        = Book.init.sideBookOf oS3.side ∧
      (idFind Book.init.id_index oS3.id = none →
        idFind (submit_market Book.init oS3).book.id_index oS3.id = none) ∧
      ((submit_market Book.init oS3).res.filled = oS3.qty ∨
        (submit_market Book.init oS3).book.emptySide oS3.side.opp = true)) :=
  ⟨by decide, by decide, by decide, C5_submit_market_amended Reach.init oS3 (by decide)⟩

/-- C5 counterexample: a bid with id 7 rests; a market buy reusing id 7 from
another user leaves the id index with an entry for id 7 and the same-side
ladder with a node of id 7, contradicting the claim's clause that both are
left without any entry for the order's id. -/
theorem C5_counterexample :
    idFind ((submit_market bC5 oC5).book).id_index 7 = some ⟨Side.Bid, 100, 0⟩ ∧
    (∃ n ∈ (findLevel ((submit_market bC5 oC5).book.sideLevels Side.Bid) 100).orders,
      n.id = 7) := by
  decide

/-- C6: self-trade prevention.  When the taker carries the STP flag and the
opposite best level's head node belongs to the taker's user, the loop's next
step erases that head from its FIFO and removes its id from the index with no
trade and no change to the unfilled quantity, then continues matching; and
scenario S6 concretely: a market buy of 10 from user 9001 with STP against
that user's own resting ask of 5 at 105 returns filled 0 remaining 10,
removes the resting ask, and leaves the ask side at the empty sentinel. -/
theorem C6_self_trade_prevention {fuel : Nat} {b : Book} {taker : Side}
    {user flags : Nat} {want : Quantity} {lim : Tick} (hw : WF b) (hwant : 0 < want)
    (hsent : ¬ b.sideBest taker.opp = sentinel taker.opp)
    (hcross : crossesB taker (b.sideBest taker.opp) lim = true)
    {h : OrderNode} {rest : List OrderNode}
    (horders : (findLevel (b.sideLevels taker.opp) (b.sideBest taker.opp)).orders = h :: rest)
    (hstp : flags &&& STP ≠ 0) (huser : h.user = user) :
    matchLoop (fuel + 1) b taker user flags want lim =
      matchLoop fuel
        (eraseHeadAdvance b taker.opp (b.sideBest taker.opp)
          ((findLevel (b.sideLevels taker.opp) (b.sideBest taker.opp)).eraseTag h.tag) h.id)
        taker user flags want lim ∧
    (findLevel ((eraseHeadAdvance b taker.opp (b.sideBest taker.opp)
        ((findLevel (b.sideLevels taker.opp) (b.sideBest taker.opp)).eraseTag h.tag)
        h.id).sideLevels taker.opp) (b.sideBest taker.opp)).orders = rest ∧
    idFind (eraseHeadAdvance b taker.opp (b.sideBest taker.opp)
        ((findLevel (b.sideLevels taker.opp) (b.sideBest taker.opp)).eraseTag h.tag)
        h.id).id_index h.id = none ∧
    (submit_market bS6 oS6).res = ⟨0, 10⟩ ∧
    (findLevel ((submit_market bS6 oS6).book.sideLevels Side.Ask) 105).orders = [] ∧
    (submit_market bS6 oS6).book.emptySide Side.Ask = true ∧
    idFind (submit_market bS6 oS6).book.id_index 11 = none := by
  refine ⟨matchLoop_step_stp hwant hsent hcross horders ⟨hstp, huser⟩, ?_, ?_,
    by decide, by decide, by decide, by decide⟩
  · rw [eraseHeadAdvance_levels, findLevel_setLevel_self]
    show removeByTag (findLevel (b.sideLevels taker.opp) (b.sideBest taker.opp)).orders
      h.tag = rest
    rw [horders]
    simp [removeByTag]
  · rw [eraseHeadAdvance_id_index]
    exact idFind_idErase_self hw.keys

theorem C6_self_trade_prevention_witness :
    (findLevel ((eraseHeadAdvance bS6 (Side.opp Side.Bid) (bS6.sideBest (Side.opp Side.Bid))
        ((findLevel (bS6.sideLevels (Side.opp Side.Bid))
          (bS6.sideBest (Side.opp Side.Bid))).eraseTag 0) 11).sideLevels (Side.opp Side.Bid))
      (bS6.sideBest (Side.opp Side.Bid))).orders = [] :=
  (@C6_self_trade_prevention 4 bS6 Side.Bid 9001 STP 10 MAXP
    (Reach_WF (Reach.limit Book.init (mkO 0 0 11 9001 Side.Ask 105 5 0) Reach.init
      (by decide) (by decide)))
    (by decide) (by decide) (by decide) ⟨11, 9001, 5, 0, 0, 0⟩ []
    (by decide) (by decide) rfl).2.1

/-- C7 (amended): a price-changing modify of a resting order equals cancel
followed by submit_limit of an order with the same id, the replacement's
user, the original entry's side, the new price and quantity, and the
replacement's flags.  The original claim instead asks for the original
resting order's user; the code reuses the replacement message wholesale and
only forces the side, so the two differ when the replacement names another
user (see the counterexample). -/
theorem C7_modify_cancel_resubmit {b : Book} {repl : NewOrder} {e : IdEntry}
    (hfind : idFind b.id_index repl.id = some e) (hpx : repl.price ≠ e.px) :
    modify b repl = submit_limit (cancel b repl.id).1 { repl with side := e.side } := by
  simp only [modify, cancel, hfind]
  rw [if_neg hpx]

theorem C7_modify_cancel_resubmit_witness :
    modify bC7 rC7 = submit_limit (cancel bC7 rC7.id).1 { rC7 with side := Side.Bid } :=
  @C7_modify_cancel_resubmit bC7 rC7 ⟨Side.Bid, 100, 0⟩ (by decide) (by decide)

/-- C7 counterexample: with a bid resting as id 1 from user 1 at price 100,
a price-changing modify submitted by user 2 produces a different state than
cancel followed by resubmission with the original order's user 1 — the code
rests the replacement's user, not the original's. -/
theorem C7_counterexample :
    modify bC7 rC7 ≠
      submit_limit (cancel bC7 1).1 (mkO 1 1 1 1 Side.Bid 101 5 0) := by
  decide

/-- C8: in-place modify frame.  In every reachable state, a modify that keeps
the resting order's price and carries a positive quantity returns filled 0
remaining 0 with no trades, rewrites exactly the indexed node's qty, ts and
flags in place (every other node of the FIFO and the node's position are
untouched), adjusts that level's cached total by the quantity delta, and
leaves both cached bests, every other level, the opposite ladder, the id
index and the allocation counter unchanged. -/
theorem C8_inplace_modify {b : Book} (hr : Reach b) {repl : NewOrder} {e : IdEntry}
    (hfind : idFind b.id_index repl.id = some e) (hpx : repl.price = e.px)
    (hq : 0 < repl.qty) :
    (modify b repl).res = ⟨0, 0⟩ ∧
    (modify b repl).trades = [] ∧
    (findLevel ((modify b repl).book.sideLevels e.side) e.px).orders
      = (findLevel (b.sideLevels e.side) e.px).orders.map
          (fun n => if n.tag = e.tag
            then { n with qty := repl.qty, ts := repl.ts, flags := repl.flags } else n) ∧
    (findLevel ((modify b repl).book.sideLevels e.side) e.px).total_qty
      = (findLevel (b.sideLevels e.side) e.px).total_qty
        + (repl.qty - qtyOfTag (findLevel (b.sideLevels e.side) e.px).orders e.tag) ∧
    (∀ p : Tick, p ≠ e.px →
      findLevel ((modify b repl).book.sideLevels e.side) p
        = findLevel (b.sideLevels e.side) p) ∧
    (modify b repl).book.sideLevels e.side.opp = b.sideLevels e.side.opp ∧
    (modify b repl).book.sideBest Side.Bid = b.sideBest Side.Bid ∧
    (modify b repl).book.sideBest Side.Ask = b.sideBest Side.Ask ∧
    (modify b repl).book.id_index = b.id_index ∧
    (modify b repl).book.nextTag = b.nextTag := by
  have hnd := findLevel_tagsnd ((Reach_WF hr).lvl e.side) e.px
  simp only [modify, hfind]
  rw [if_pos hpx, if_neg (not_le.mpr hq)]
  refine ⟨rfl, rfl, ?_, ?_, ?_, ?_, ?_, ?_, ?_, ?_⟩
  · rw [sideLevels_setSideLevel_same, findLevel_setLevel_self]
    exact updateByTag_eq_map hnd repl.qty repl.ts repl.flags
  · rw [sideLevels_setSideLevel_same, findLevel_setLevel_self]
  · intro p hp
    rw [sideLevels_setSideLevel_same, findLevel_setLevel_ne _ _ _ hp]
  · rw [sideLevels_setSideLevel_other (opp_ne_self e.side)]
  · exact sideBest_setSideLevel b e.side e.px _ Side.Bid
  · exact sideBest_setSideLevel b e.side e.px _ Side.Ask
  · exact id_index_setSideLevel b e.side e.px _
  · exact nextTag_setSideLevel b e.side e.px _

theorem C8_inplace_modify_witness :
    (findLevel ((modify bC7 rC8).book.sideLevels Side.Bid) 100).total_qty
      = (findLevel (bC7.sideLevels Side.Bid) 100).total_qty
        + (rC8.qty - qtyOfTag (findLevel (bC7.sideLevels Side.Bid) 100).orders 0) :=
  (@C8_inplace_modify bC7
    (Reach.limit Book.init (mkO 0 0 1 1 Side.Bid 100 5 0) Reach.init
      (by decide) (by decide))
    rC8 ⟨Side.Bid, 100, 0⟩ (by decide) rfl (by decide)).2.2.2.1

/-- C9: FIFO quantity accounting.  In every reachable state, every level of
either ladder has its cached total equal to the sum of its linked nodes'
quantities, is head-empty iff tail-empty iff total 0, and links only nodes of
positive quantity; consequently the side-wide sum of cached totals equals the
side-wide sum of linked nodes' quantities. -/
theorem C9_fifo_accounting {b : Book} (hr : Reach b) (s : Side) :
    (∀ pL ∈ b.sideLevels s,
      pL.2.total_qty = sumQty pL.2.orders ∧
      (pL.2.orders.head? = none ↔ pL.2.orders.getLast? = none) ∧
      (pL.2.orders.head? = none ↔ pL.2.total_qty = 0) ∧
      ∀ n ∈ pL.2.orders, 0 < n.qty) ∧
    ((b.sideLevels s).map (fun pL => pL.2.total_qty)).sum
      = ((b.sideLevels s).map (fun pL => sumQty pL.2.orders)).sum := by
  have hl := (Reach_WF hr).lvl s
  refine ⟨?_, ?_⟩
  · intro pL hpL
    have htot := hl.total pL hpL
    have hpos := hl.pos pL hpL
    refine ⟨htot, ?_, ?_, hpos⟩
    · rw [List.head?_eq_none_iff, List.getLast?_eq_none_iff]
    · rw [List.head?_eq_none_iff]
      constructor
      · intro hnil
        rw [htot, hnil]
        rfl
      · intro h0
        by_contra hne
        have hlt := sumQty_pos hpos hne
        rw [← htot, h0] at hlt
        exact lt_irrefl 0 hlt
  · have hmap : (b.sideLevels s).map (fun pL => pL.2.total_qty)
        = (b.sideLevels s).map (fun pL => sumQty pL.2.orders) :=
      List.map_congr_left fun pL hpL => hl.total pL hpL
    rw [hmap]

theorem C9_fifo_accounting_witness :
    ((100 : Tick), (⟨[⟨1, 1, 5, 0, 0, 0⟩], 5⟩ : LevelFIFO)) ∈ bC7.sideLevels Side.Bid ∧
    ((100 : Tick), (⟨[⟨1, 1, 5, 0, 0, 0⟩], 5⟩ : LevelFIFO)).2.total_qty
      = sumQty ((100 : Tick), (⟨[⟨1, 1, 5, 0, 0, 0⟩], 5⟩ : LevelFIFO)).2.orders :=
  ⟨by decide,
   ((C9_fifo_accounting
      (Reach.limit Book.init (mkO 0 0 1 1 Side.Bid 100 5 0) Reach.init
        (by decide) (by decide)) Side.Bid).1
     ((100 : Tick), (⟨[⟨1, 1, 5, 0, 0, 0⟩], 5⟩ : LevelFIFO)) (by decide)).1⟩

/-- C10 (amended): id-index membership.  In every reachable state, an id the
index contains always references a currently linked node bearing that id;
and the converse — every linked node's id is in the index, giving the
claimed equivalence — holds along histories whose submitted order ids are
fresh at submission time.  Under arbitrary id reuse the equivalence itself
fails (see the counterexample): resubmitting a resting id overwrites its
index entry, orphaning the first node. -/
theorem C10_id_index_membership {b : Book} :
    (Reach b → ∀ id : Nat, ∀ e : IdEntry, idFind b.id_index id = some e →
      ∃ n ∈ (findLevel (b.sideLevels e.side) e.px).orders, n.id = id) ∧
    (ReachF b → ∀ id : Nat,
      ((∃ s : Side, ∃ px : Tick,
          ∃ n ∈ (findLevel (b.sideLevels s) px).orders, n.id = id)
        ↔ idFind b.id_index id ≠ none)) := by
  refine ⟨?_, ?_⟩
  · intro hr id e hfind
    obtain ⟨n, hn, _, hni⟩ := (Reach_WF hr).entry (id, e) (idFind_mem hfind)
    exact ⟨n, hn, hni⟩
  · intro hrF id
    obtain ⟨hw, hF⟩ := ReachF_WF hrF
    constructor
    · rintro ⟨s, px, n, hn, rfl⟩
      rw [hF s px n hn]
      exact Option.some_ne_none _
    · intro hne
      rcases hfind : idFind b.id_index id with _ | e
      · exact absurd hfind hne
      · obtain ⟨n, hn, _, hni⟩ := hw.entry (id, e) (idFind_mem hfind)
        exact ⟨e.side, e.px, n, hn, hni⟩

/-- C10 counterexample: submit bid id 1 at 100, submit bid id 1 again at 101
(the index entry is overwritten), then cancel id 1.  A node with id 1 is
still linked at 100, yet the index no longer contains id 1, so containment
and linkage are not equivalent under id reuse. -/
theorem C10_counterexample :
    (∃ n ∈ (findLevel (bC10.sideLevels Side.Bid) (100 : Tick)).orders, n.id = 1) ∧
    idFind bC10.id_index 1 = none := by
  decide

end LOB
